import Mathlib

/- Verification of the bill-tracking allocation engine (bill_tracker.py and the
payment_cache backends).  Dates are modelled as (year, month, day) triples over ℤ
with the proleptic Gregorian calendar, mirroring Python's datetime.date:
toOrdinal matches date.toordinal (0001-01-01 has ordinal 1), succDate/predDate
mirror adding/subtracting timedelta(days=1), and addMonths mirrors
dateutil.relativedelta month arithmetic (day clamped to the target month's length). -/

namespace BillTracker

def isLeap (y : ℤ) : Bool := (y % 4 == 0 && y % 100 != 0) || y % 400 == 0

def daysInMonth (y m : ℤ) : ℤ :=
  if m = 2 then (if isLeap y then 29 else 28)
  else if m = 4 ∨ m = 6 ∨ m = 9 ∨ m = 11 then 30
  else 31

def daysBeforeMonth (y m : ℤ) : ℤ :=
  if m ≤ 1 then 0
  else if m = 2 then 31
  else if m = 3 then 59 + (if isLeap y then 1 else 0)
  else if m = 4 then 90 + (if isLeap y then 1 else 0)
  else if m = 5 then 120 + (if isLeap y then 1 else 0)
  else if m = 6 then 151 + (if isLeap y then 1 else 0)
  else if m = 7 then 181 + (if isLeap y then 1 else 0)
  else if m = 8 then 212 + (if isLeap y then 1 else 0)
  else if m = 9 then 243 + (if isLeap y then 1 else 0)
  else if m = 10 then 273 + (if isLeap y then 1 else 0)
  else if m = 11 then 304 + (if isLeap y then 1 else 0)
  else 334 + (if isLeap y then 1 else 0)

def daysBeforeYear (y : ℤ) : ℤ :=
  365 * (y - 1) + (y - 1) / 4 - (y - 1) / 100 + (y - 1) / 400

structure Date where
  year : ℤ
  month : ℤ
  day : ℤ
deriving DecidableEq, Repr

def toOrdinal (d : Date) : ℤ :=
  daysBeforeYear d.year + daysBeforeMonth d.year d.month + d.day

def Date.Valid (d : Date) : Prop :=
  1 ≤ d.month ∧ d.month ≤ 12 ∧ 1 ≤ d.day ∧ d.day ≤ daysInMonth d.year d.month

instance (d : Date) : Decidable d.Valid := by unfold Date.Valid; infer_instance

/- Python weekday(): Monday = 0; ordinal 1 (0001-01-01) is a Monday. -/
def weekday (d : Date) : ℤ := (toOrdinal d - 1) % 7

def succDate (d : Date) : Date :=
  if d.day < daysInMonth d.year d.month then ⟨d.year, d.month, d.day + 1⟩
  else if d.month < 12 then ⟨d.year, d.month + 1, 1⟩
  else ⟨d.year + 1, 1, 1⟩

def predDate (d : Date) : Date :=
  if 1 < d.day then ⟨d.year, d.month, d.day - 1⟩
  else if 1 < d.month then ⟨d.year, d.month - 1, daysInMonth d.year (d.month - 1)⟩
  else ⟨d.year - 1, 12, 31⟩

def addDays (n : ℕ) (d : Date) : Date := succDate^[n] d

def subDays (n : ℕ) (d : Date) : Date := predDate^[n] d

theorem isLeap_iff (y : ℤ) :
    isLeap y = true ↔ ((y % 4 = 0 ∧ y % 100 ≠ 0) ∨ y % 400 = 0) := by
  simp [isLeap, Bool.or_eq_true, Bool.and_eq_true, beq_iff_eq, bne_iff_ne]

theorem daysInMonth_bounds (y m : ℤ) :
    28 ≤ daysInMonth y m ∧ daysInMonth y m ≤ 31 := by
  unfold daysInMonth
  split_ifs <;> omega

theorem daysBeforeMonth_step {y m : ℤ} (h1 : 1 ≤ m) (h2 : m ≤ 11) :
    daysBeforeMonth y (m + 1) = daysBeforeMonth y m + daysInMonth y m := by
  interval_cases m <;> cases hb : isLeap y <;>
    norm_num [daysBeforeMonth, daysInMonth, hb]

theorem daysBeforeMonth_twelve (y : ℤ) :
    daysBeforeMonth y 12 + 31 = 365 + (if isLeap y then 1 else 0) := by
  cases hb : isLeap y <;> norm_num [daysBeforeMonth, hb]

theorem daysBeforeYear_step (y : ℤ) :
    daysBeforeYear (y + 1) = daysBeforeYear y + 365 + (if isLeap y then 1 else 0) := by
  unfold daysBeforeYear
  have e1 : y + 1 - 1 = y := by ring
  rw [e1]
  by_cases hp : (y % 4 = 0 ∧ y % 100 ≠ 0) ∨ y % 400 = 0
  · rw [if_pos ((isLeap_iff y).mpr hp)]
    omega
  · rw [if_neg (fun hc => hp ((isLeap_iff y).mp hc))]
    omega

theorem valid_mk {y m dd : ℤ} (h1 : 1 ≤ m) (h2 : m ≤ 12) (h3 : 1 ≤ dd)
    (h4 : dd ≤ daysInMonth y m) : Date.Valid ⟨y, m, dd⟩ :=
  ⟨h1, h2, h3, h4⟩

theorem toOrdinal_succ {d : Date} (h : d.Valid) :
    toOrdinal (succDate d) = toOrdinal d + 1 ∧ (succDate d).Valid := by
  obtain ⟨hm1, hm2, hd1, hd2⟩ := h
  unfold succDate
  by_cases hlt : d.day < daysInMonth d.year d.month
  · rw [if_pos hlt]
    exact ⟨by simp only [toOrdinal]; ring, valid_mk hm1 hm2 (by omega) (by omega)⟩
  · rw [if_neg hlt]
    have hde : d.day = daysInMonth d.year d.month := by omega
    by_cases hm : d.month < 12
    · rw [if_pos hm]
      constructor
      · simp only [toOrdinal]
        have := daysBeforeMonth_step (y := d.year) (m := d.month) hm1 (by omega)
        omega
      · have := daysInMonth_bounds d.year (d.month + 1)
        exact valid_mk (by omega) (by omega) (by omega) (by omega)
    · rw [if_neg hm]
      have hm12 : d.month = 12 := by omega
      constructor
      · simp only [toOrdinal]
        have h1 := daysBeforeYear_step d.year
        have h2 := daysBeforeMonth_twelve d.year
        have h3 : daysBeforeMonth (d.year + 1) 1 = 0 := by norm_num [daysBeforeMonth]
        have h4 : daysInMonth d.year 12 = 31 := by norm_num [daysInMonth]
        rw [hm12] at hde ⊢
        rw [h3]
        omega
      · have := daysInMonth_bounds (d.year + 1) 1
        exact valid_mk (by omega) (by omega) (by omega) (by omega)

theorem toOrdinal_pred {d : Date} (h : d.Valid) :
    toOrdinal (predDate d) = toOrdinal d - 1 ∧ (predDate d).Valid := by
  obtain ⟨hm1, hm2, hd1, hd2⟩ := h
  unfold predDate
  by_cases hgt : 1 < d.day
  · rw [if_pos hgt]
    exact ⟨by simp only [toOrdinal]; ring, valid_mk hm1 hm2 (by omega) (by omega)⟩
  · rw [if_neg hgt]
    have hde : d.day = 1 := by omega
    by_cases hm : 1 < d.month
    · rw [if_pos hm]
      constructor
      · simp only [toOrdinal]
        have hs := daysBeforeMonth_step (y := d.year) (m := d.month - 1) (by omega) (by omega)
        have he : d.month - 1 + 1 = d.month := by omega
        rw [he] at hs
        omega
      · have := daysInMonth_bounds d.year (d.month - 1)
        exact valid_mk (by omega) (by omega) (by omega) (by omega)
    · rw [if_neg hm]
      have hm1' : d.month = 1 := by omega
      constructor
      · simp only [toOrdinal]
        have h1 := daysBeforeYear_step (d.year - 1)
        have h2 := daysBeforeMonth_twelve (d.year - 1)
        have h3 : daysBeforeMonth d.year 1 = 0 := by norm_num [daysBeforeMonth]
        have h5 : d.year - 1 + 1 = d.year := by ring
        rw [h5] at h1
        rw [hm1']
        rw [h3, hde]
        omega
      · have h4 : daysInMonth (d.year - 1) 12 = 31 := by norm_num [daysInMonth]
        exact valid_mk (by omega) (by omega) (by omega) (by omega)

theorem toOrdinal_addDays {d : Date} (n : ℕ) (h : d.Valid) :
    toOrdinal (addDays n d) = toOrdinal d + n ∧ (addDays n d).Valid := by
  induction n with
  | zero => simpa [addDays] using h
  | succ k ih =>
    have hstep : addDays (k + 1) d = succDate (addDays k d) := by
      simp [addDays, Function.iterate_succ_apply']
    have h1 := toOrdinal_succ ih.2
    rw [hstep]
    refine ⟨by omega, h1.2⟩

theorem toOrdinal_subDays {d : Date} (n : ℕ) (h : d.Valid) :
    toOrdinal (subDays n d) = toOrdinal d - n ∧ (subDays n d).Valid := by
  induction n with
  | zero => simpa [subDays] using h
  | succ k ih =>
    have hstep : subDays (k + 1) d = predDate (subDays k d) := by
      simp [subDays, Function.iterate_succ_apply']
    have h1 := toOrdinal_pred ih.2
    rw [hstep]
    refine ⟨by omega, h1.2⟩

/- Month-index machinery: midx numbers (year, month) pairs consecutively;
msI gives the ordinal of the day before the first day of that month. -/

def midx (d : Date) : ℤ := 12 * d.year + d.month

def msI (i : ℤ) : ℤ :=
  daysBeforeYear ((i - 1) / 12) + daysBeforeMonth ((i - 1) / 12) ((i - 1) % 12 + 1)

theorem toOrdinal_eq_msI {d : Date} (h : d.Valid) :
    toOrdinal d = msI (midx d) + d.day := by
  obtain ⟨hm1, hm2, _, _⟩ := h
  unfold toOrdinal msI midx
  have h1 : (12 * d.year + d.month - 1) / 12 = d.year := by omega
  have h2 : (12 * d.year + d.month - 1) % 12 + 1 = d.month := by omega
  rw [h1, h2]

theorem msI_step (i : ℤ) :
    msI (i + 1) = msI i + daysInMonth ((i - 1) / 12) ((i - 1) % 12 + 1) := by
  have hm1 : 1 ≤ (i - 1) % 12 + 1 := by omega
  by_cases hc : (i - 1) % 12 + 1 ≤ 11
  · have e1 : (i + 1 - 1) / 12 = (i - 1) / 12 := by omega
    have e2 : (i + 1 - 1) % 12 + 1 = ((i - 1) % 12 + 1) + 1 := by omega
    unfold msI
    rw [e1, e2, daysBeforeMonth_step hm1 hc]
    ring
  · have hm12 : (i - 1) % 12 + 1 = 12 := by omega
    have e1 : (i + 1 - 1) / 12 = (i - 1) / 12 + 1 := by omega
    have e2 : (i + 1 - 1) % 12 + 1 = 1 := by omega
    unfold msI
    rw [e1, e2, hm12]
    have h1 := daysBeforeYear_step ((i - 1) / 12)
    have h2 := daysBeforeMonth_twelve ((i - 1) / 12)
    have h3 : daysBeforeMonth ((i - 1) / 12 + 1) 1 = 0 := by norm_num [daysBeforeMonth]
    have h4 : daysInMonth ((i - 1) / 12) 12 = 31 := by norm_num [daysInMonth]
    omega

theorem msI_step_bounds (i : ℤ) : msI i + 28 ≤ msI (i + 1) ∧ msI (i + 1) ≤ msI i + 31 := by
  have h1 := msI_step i
  have h2 := daysInMonth_bounds ((i - 1) / 12) ((i - 1) % 12 + 1)
  omega

theorem msI_mono : ∀ {i j : ℤ}, i < j → msI i + 28 ≤ msI j := by
  intro i j h
  have h' : i + 1 ≤ j := h
  refine Int.le_induction (P := fun k => msI i + 28 ≤ msI k) ?_ ?_ j h'
  · have := msI_step_bounds i
    omega
  · intro n hn ih
    have := msI_step_bounds n
    omega

theorem msI_le_of_le {i j : ℤ} (h : i ≤ j) : msI i ≤ msI j := by
  rcases lt_or_eq_of_le h with h | h
  · have := msI_mono h; omega
  · rw [h]

theorem midx_decomp {d : Date} (h : d.Valid) :
    (midx d - 1) / 12 = d.year ∧ (midx d - 1) % 12 + 1 = d.month := by
  obtain ⟨hm1, hm2, _, _⟩ := h
  unfold midx
  omega

theorem ord_lt_of_midx_lt {d1 d2 : Date} (h1 : d1.Valid) (h2 : d2.Valid)
    (h : midx d1 < midx d2) : toOrdinal d1 < toOrdinal d2 := by
  have e1 := toOrdinal_eq_msI h1
  have e2 := toOrdinal_eq_msI h2
  have hd1 := midx_decomp h1
  have hs := msI_step (midx d1)
  rw [hd1.1, hd1.2] at hs
  have hle : msI (midx d1 + 1) ≤ msI (midx d2) := msI_le_of_le (by omega)
  have hb1 := h1.2.2.2
  have hb2 := h2.2.2.1
  omega

theorem midx_le_of_ord_le {d1 d2 : Date} (h1 : d1.Valid) (h2 : d2.Valid)
    (h : toOrdinal d1 ≤ toOrdinal d2) : midx d1 ≤ midx d2 := by
  by_contra hc
  have := ord_lt_of_midx_lt h2 h1 (by omega)
  omega

theorem date_ext {d1 d2 : Date} (hy : d1.year = d2.year) (hm : d1.month = d2.month)
    (hd : d1.day = d2.day) : d1 = d2 := by
  obtain ⟨y1, m1, a1⟩ := d1
  obtain ⟨y2, m2, a2⟩ := d2
  simp only at hy hm hd
  rw [hy, hm, hd]

theorem ord_inj {d1 d2 : Date} (h1 : d1.Valid) (h2 : d2.Valid)
    (h : toOrdinal d1 = toOrdinal d2) : d1 = d2 := by
  have hm : midx d1 = midx d2 := by
    have a := midx_le_of_ord_le h1 h2 (by omega)
    have b := midx_le_of_ord_le h2 h1 (by omega)
    omega
  have hy : d1.year = d2.year := by
    have a1 := h1.1; have a2 := h1.2.1; have b1 := h2.1; have b2 := h2.2.1
    unfold midx at hm
    omega
  have hmm : d1.month = d2.month := by
    unfold midx at hm
    omega
  have hd : d1.day = d2.day := by
    have e1 := toOrdinal_eq_msI h1
    have e2 := toOrdinal_eq_msI h2
    rw [hm] at e1
    omega
  exact date_ext hy hmm hd

/- dateutil.relativedelta month arithmetic: normalize months into the year,
then clamp the day to the length of the target month. -/
def addMonths (n : ℤ) (d : Date) : Date :=
  ⟨d.year + (d.month - 1 + n) / 12, (d.month - 1 + n) % 12 + 1,
    min d.day (daysInMonth (d.year + (d.month - 1 + n) / 12) ((d.month - 1 + n) % 12 + 1))⟩

theorem addMonths_midx (n : ℤ) (d : Date) : midx (addMonths n d) = midx d + n := by
  unfold midx addMonths
  dsimp only
  omega

theorem addMonths_valid {d : Date} (n : ℤ) (h : d.Valid) : (addMonths n d).Valid := by
  obtain ⟨hm1, hm2, hd1, hd2⟩ := h
  have hb := daysInMonth_bounds (d.year + (d.month - 1 + n) / 12) ((d.month - 1 + n) % 12 + 1)
  exact valid_mk (by omega) (by omega) (by omega) (by omega)

theorem addMonths_zero {d : Date} (h : d.Valid) : addMonths 0 d = d := by
  obtain ⟨hm1, hm2, hd1, hd2⟩ := h
  unfold addMonths
  have e1 : (d.month - 1 + 0) / 12 = 0 := by omega
  have e2 : (d.month - 1 + 0) % 12 + 1 = d.month := by omega
  rw [e1, e2]
  have e3 : d.year + 0 = d.year := by ring
  rw [e3]
  exact date_ext rfl rfl (by dsimp only; omega)

theorem ord_lt_addMonths {d : Date} {n : ℤ} (hn : 1 ≤ n) (h : d.Valid) :
    toOrdinal d < toOrdinal (addMonths n d) := by
  have := addMonths_midx n d
  exact ord_lt_of_midx_lt h (addMonths_valid n h) (by omega)

theorem addMonths_day {d : Date} (n : ℤ) (h28 : d.day ≤ 28) :
    (addMonths n d).day = d.day := by
  have hb := daysInMonth_bounds (d.year + (d.month - 1 + n) / 12) ((d.month - 1 + n) % 12 + 1)
  unfold addMonths
  simp only
  omega

/- A billing cycle, mirroring dateutil.relativedelta restricted to the
fields the program uses (years, months, weeks, days). -/
structure Cycle where
  years : ℤ
  months : ℤ
  weeks : ℤ
  days : ℤ
deriving DecidableEq, Repr

def Cycle.monthShift (c : Cycle) : ℤ := 12 * c.years + c.months

def Cycle.dayShift (c : Cycle) : ℤ := 7 * c.weeks + c.days

def shiftDays (n : ℤ) (d : Date) : Date :=
  if 0 ≤ n then addDays n.toNat d else subDays (-n).toNat d

def addCycle (c : Cycle) (d : Date) : Date :=
  shiftDays c.dayShift (addMonths c.monthShift d)

def WEEKLY : Cycle := ⟨0, 0, 1, 0⟩

def MONTHLY : Cycle := ⟨0, 1, 0, 0⟩

def YEARLY : Cycle := ⟨1, 0, 0, 0⟩

theorem shiftDays_spec {d : Date} (n : ℤ) (h : d.Valid) :
    toOrdinal (shiftDays n d) = toOrdinal d + n ∧ (shiftDays n d).Valid := by
  unfold shiftDays
  by_cases hn : 0 ≤ n
  · rw [if_pos hn]
    have := toOrdinal_addDays (d := d) n.toNat h
    have he : (n.toNat : ℤ) = n := by omega
    rw [he] at this
    exact this
  · rw [if_neg hn]
    have := toOrdinal_subDays (d := d) (-n).toNat h
    have he : ((-n).toNat : ℤ) = -n := by omega
    rw [he] at this
    exact ⟨by omega, this.2⟩

/- Positivity of a cycle: stepping any valid date forward lands on a
strictly later valid date. -/
def CyclePos (c : Cycle) : Prop :=
  ∀ d : Date, d.Valid → (addCycle c d).Valid ∧ toOrdinal d < toOrdinal (addCycle c d)

theorem cyclePos_of {c : Cycle} (h1 : 0 ≤ c.monthShift) (h2 : 0 ≤ c.dayShift)
    (h3 : 0 < c.monthShift + c.dayShift) : CyclePos c := by
  intro d hd
  have hmv : (addMonths c.monthShift d).Valid := addMonths_valid _ hd
  have hsd := shiftDays_spec (d := addMonths c.monthShift d) c.dayShift hmv
  unfold addCycle
  refine ⟨hsd.2, ?_⟩
  rcases eq_or_lt_of_le h1 with he | hlt
  · have hz : addMonths c.monthShift d = d := by rw [← he]; exact addMonths_zero hd
    rw [hz] at hsd ⊢
    omega
  · have := ord_lt_addMonths hlt hd
    omega

theorem cyclePos_monthly : CyclePos MONTHLY := by
  apply cyclePos_of <;> norm_num [Cycle.monthShift, Cycle.dayShift, MONTHLY]

theorem cyclePos_weekly : CyclePos WEEKLY := by
  apply cyclePos_of <;> norm_num [Cycle.monthShift, Cycle.dayShift, WEEKLY]

theorem cyclePos_yearly : CyclePos YEARLY := by
  apply cyclePos_of <;> norm_num [Cycle.monthShift, Cycle.dayShift, YEARLY]

/- Fuel-bounded while loops.  Every loop in the source has the shape
"while cond: cur = next(cur)" and possibly counts its iterations; whileGo
returns (iteration count, final value).  The fuel supplied at each call site
is an ordinal-difference bound, and whileFuel_eq shows the bounded loop
satisfies the exact unfolding equation of the unbounded source loop whenever
each iteration makes progress. -/

def whileGo (cond : Date → Bool) (next : Date → Date) : ℕ → Date → ℕ × Date
  | 0, cur => (0, cur)
  | f + 1, cur =>
    if cond cur then
      ((whileGo cond next f (next cur)).1 + 1, (whileGo cond next f (next cur)).2)
    else (0, cur)

theorem whileGo_congr {cond : Date → Bool} {next : Date → Date} (P : Date → Prop)
    (μ : Date → ℕ)
    (hstep : ∀ x, P x → cond x = true → P (next x) ∧ μ (next x) < μ x) :
    ∀ (f1 f2 : ℕ) (x : Date), P x → μ x ≤ f1 → μ x ≤ f2 →
      whileGo cond next f1 x = whileGo cond next f2 x := by
  intro f1
  induction f1 with
  | zero =>
    intro f2 x hP h1 h2
    cases hcc : cond x with
    | true => exact absurd ((hstep x hP hcc).2) (by omega)
    | false =>
      cases f2 with
      | zero => rfl
      | succ g2 => simp [whileGo, hcc]
  | succ g ih =>
    intro f2 x hP h1 h2
    cases hcc : cond x with
    | false =>
      cases f2 with
      | zero => simp [whileGo, hcc]
      | succ g2 => simp [whileGo, hcc]
    | true =>
      cases f2 with
      | zero => exact absurd ((hstep x hP hcc).2) (by omega)
      | succ g2 =>
        obtain ⟨hP2, hμ⟩ := hstep x hP hcc
        have hrec := ih g2 (next x) hP2 (by omega) (by omega)
        simp [whileGo, hcc, hrec]

theorem whileFuel_eq (cond : Date → Bool) (next : Date → Date) (P : Date → Prop)
    (μ fuelFn : Date → ℕ)
    (hstep : ∀ x, P x → cond x = true → P (next x) ∧ μ (next x) < μ x)
    (hfuel : ∀ x, μ x ≤ fuelFn x)
    (x : Date) (hP : P x) :
    whileGo cond next (fuelFn x) x =
      if cond x then
        ((whileGo cond next (fuelFn (next x)) (next x)).1 + 1,
         (whileGo cond next (fuelFn (next x)) (next x)).2)
      else (0, x) := by
  cases hcc : cond x with
  | false =>
    rw [if_neg (by simp [hcc])]
    cases hf : fuelFn x with
    | zero => simp [whileGo]
    | succ g => simp [whileGo, hcc]
  | true =>
    rw [if_pos (by simp [hcc])]
    obtain ⟨hP2, hμ⟩ := hstep x hP hcc
    have h2 : μ x ≤ fuelFn x := hfuel x
    obtain ⟨g, hg⟩ : ∃ g, fuelFn x = g + 1 := ⟨fuelFn x - 1, by omega⟩
    rw [hg]
    have hrec := whileGo_congr P μ hstep g (fuelFn (next x)) (next x) hP2 (by omega)
      (hfuel (next x))
    simp [whileGo, hcc, hrec]

/- Progress of a cycle step on valid dates. -/
def StepUp (step : Date → Date) : Prop :=
  ∀ x : Date, x.Valid → (step x).Valid ∧ toOrdinal x < toOrdinal (step x)

/- Loop "while cur < target: cur = step(cur)", returning (count, final). -/
def upTo (step : Date → Date) (target cur : Date) : ℕ × Date :=
  whileGo (fun x => decide (toOrdinal x < toOrdinal target)) step
    ((toOrdinal target - toOrdinal cur).toNat) cur

/- Loop "while step(cur) < target: cur = step(cur)", returning (count, final). -/
def upBelow (step : Date → Date) (target cur : Date) : ℕ × Date :=
  whileGo (fun x => decide (toOrdinal (step x) < toOrdinal target)) step
    ((toOrdinal target - toOrdinal cur).toNat) cur

/- Loop "while since <= cur: count; cur = cur - pp days". -/
def downCount (pp : ℕ) (since cur : Date) : ℕ × Date :=
  whileGo (fun x => decide (toOrdinal since ≤ toOrdinal x)) (subDays pp)
    ((toOrdinal cur - toOrdinal since + 1).toNat) cur

/- Loop "while d < cur: cur = cur - pp days". -/
def downTo (pp : ℕ) (d cur : Date) : ℕ × Date :=
  whileGo (fun x => decide (toOrdinal d < toOrdinal x)) (subDays pp)
    ((toOrdinal cur - toOrdinal d).toNat) cur

theorem upTo_eq {step : Date → Date} (hs : StepUp step) (target : Date) {cur : Date}
    (hv : cur.Valid) :
    upTo step target cur =
      if toOrdinal cur < toOrdinal target then
        ((upTo step target (step cur)).1 + 1, (upTo step target (step cur)).2)
      else (0, cur) := by
  have h := whileFuel_eq (fun x => decide (toOrdinal x < toOrdinal target)) step Date.Valid
    (fun x => (toOrdinal target - toOrdinal x).toNat)
    (fun x => (toOrdinal target - toOrdinal x).toNat)
    (fun x hx hc => by
      have hlt := of_decide_eq_true hc
      obtain ⟨h1, h2⟩ := hs x hx
      exact ⟨h1, by dsimp only; omega⟩)
    (fun x => le_refl _) cur hv
  simp only [decide_eq_true_eq] at h
  exact h

theorem upBelow_eq {step : Date → Date} (hs : StepUp step) (target : Date) {cur : Date}
    (hv : cur.Valid) :
    upBelow step target cur =
      if toOrdinal (step cur) < toOrdinal target then
        ((upBelow step target (step cur)).1 + 1, (upBelow step target (step cur)).2)
      else (0, cur) := by
  have h := whileFuel_eq (fun x => decide (toOrdinal (step x) < toOrdinal target)) step
    Date.Valid
    (fun x => (toOrdinal target - toOrdinal x).toNat)
    (fun x => (toOrdinal target - toOrdinal x).toNat)
    (fun x hx hc => by
      have hlt := of_decide_eq_true hc
      obtain ⟨h1, h2⟩ := hs x hx
      exact ⟨h1, by dsimp only; omega⟩)
    (fun x => le_refl _) cur hv
  simp only [decide_eq_true_eq] at h
  exact h

theorem downCount_eq {pp : ℕ} (hpp : 1 ≤ pp) (since : Date) {cur : Date}
    (hv : cur.Valid) :
    downCount pp since cur =
      if toOrdinal since ≤ toOrdinal cur then
        ((downCount pp since (subDays pp cur)).1 + 1,
         (downCount pp since (subDays pp cur)).2)
      else (0, cur) := by
  have h := whileFuel_eq (fun x => decide (toOrdinal since ≤ toOrdinal x)) (subDays pp)
    Date.Valid
    (fun x => (toOrdinal x - toOrdinal since + 1).toNat)
    (fun x => (toOrdinal x - toOrdinal since + 1).toNat)
    (fun x hx hc => by
      have hle := of_decide_eq_true hc
      have hsub := toOrdinal_subDays (d := x) pp hx
      exact ⟨hsub.2, by dsimp only; omega⟩)
    (fun x => le_refl _) cur hv
  simp only [decide_eq_true_eq] at h
  exact h

theorem downTo_eq {pp : ℕ} (hpp : 1 ≤ pp) (d : Date) {cur : Date}
    (hv : cur.Valid) :
    downTo pp d cur =
      if toOrdinal d < toOrdinal cur then
        ((downTo pp d (subDays pp cur)).1 + 1, (downTo pp d (subDays pp cur)).2)
      else (0, cur) := by
  have h := whileFuel_eq (fun x => decide (toOrdinal d < toOrdinal x)) (subDays pp)
    Date.Valid
    (fun x => (toOrdinal x - toOrdinal d).toNat)
    (fun x => (toOrdinal x - toOrdinal d).toNat)
    (fun x hx hc => by
      have hle := of_decide_eq_true hc
      have hsub := toOrdinal_subDays (d := x) pp hx
      exact ⟨hsub.2, by dsimp only; omega⟩)
    (fun x => le_refl _) cur hv
  simp only [decide_eq_true_eq] at h
  exact h

/- Iteration theory for a progressing step function. -/

theorem iter_valid {step : Date → Date} (hs : StepUp step) {a : Date} (hv : a.Valid)
    (k : ℕ) : (step^[k] a).Valid := by
  induction k with
  | zero => simpa using hv
  | succ n ih =>
    rw [Function.iterate_succ_apply']
    exact (hs _ ih).1

theorem iter_ord_lt {step : Date → Date} (hs : StepUp step) {a : Date} (hv : a.Valid)
    {j k : ℕ} (h : j < k) :
    toOrdinal (step^[j] a) < toOrdinal (step^[k] a) := by
  induction k with
  | zero => omega
  | succ n ih =>
    rw [Function.iterate_succ_apply']
    have hlt := (hs _ (iter_valid hs hv n)).2
    rcases Nat.lt_or_ge j n with hj | hj
    · have := ih hj
      omega
    · have hje : j = n := by omega
      rw [hje]
      omega

theorem iter_ord_le {step : Date → Date} (hs : StepUp step) {a : Date} (hv : a.Valid)
    {j k : ℕ} (h : j ≤ k) :
    toOrdinal (step^[j] a) ≤ toOrdinal (step^[k] a) := by
  rcases Nat.lt_or_ge j k with hj | hj
  · exact le_of_lt (iter_ord_lt hs hv hj)
  · have hje : j = k := by omega
    rw [hje]

theorem upTo_spec {step : Date → Date} (hs : StepUp step) (target : Date) :
    ∀ cur : Date, cur.Valid →
      ∃ k : ℕ, (upTo step target cur).2 = step^[k] cur ∧
        (∀ j < k, toOrdinal (step^[j] cur) < toOrdinal target) ∧
        toOrdinal target ≤ toOrdinal (step^[k] cur) := by
  intro cur hv
  generalize hn : (toOrdinal target - toOrdinal cur).toNat = n
  induction n using Nat.strong_induction_on generalizing cur with
  | _ n ih =>
    rw [upTo_eq hs target hv]
    by_cases hc : toOrdinal cur < toOrdinal target
    · rw [if_pos hc]
      dsimp only
      obtain ⟨hv2, hlt⟩ := hs cur hv
      obtain ⟨k, hk, hall, hge⟩ :=
        ih ((toOrdinal target - toOrdinal (step cur)).toNat) (by omega) (step cur) hv2 rfl
      refine ⟨k + 1, ?_, ?_, ?_⟩
      · rw [Function.iterate_succ_apply]
        exact hk
      · intro j hj
        cases j with
        | zero => simpa using hc
        | succ i =>
          rw [Function.iterate_succ_apply]
          exact hall i (by omega)
      · rw [Function.iterate_succ_apply]
        exact hge
    · rw [if_neg hc]
      exact ⟨0, rfl, fun j hj => absurd hj (Nat.not_lt_zero j), by simpa using by omega⟩

theorem upBelow_spec {step : Date → Date} (hs : StepUp step) (target : Date) :
    ∀ cur : Date, cur.Valid →
      ∃ k : ℕ, (upBelow step target cur).2 = step^[k] cur ∧
        (∀ j < k, toOrdinal (step^[j + 1] cur) < toOrdinal target) ∧
        toOrdinal target ≤ toOrdinal (step (step^[k] cur)) := by
  intro cur hv
  generalize hn : (toOrdinal target - toOrdinal cur).toNat = n
  induction n using Nat.strong_induction_on generalizing cur with
  | _ n ih =>
    rw [upBelow_eq hs target hv]
    by_cases hc : toOrdinal (step cur) < toOrdinal target
    · rw [if_pos hc]
      dsimp only
      obtain ⟨hv2, hlt⟩ := hs cur hv
      obtain ⟨k, hk, hall, hge⟩ :=
        ih ((toOrdinal target - toOrdinal (step cur)).toNat) (by omega) (step cur) hv2 rfl
      refine ⟨k + 1, ?_, ?_, ?_⟩
      · rw [Function.iterate_succ_apply]
        exact hk
      · intro j hj
        cases j with
        | zero => simpa using hc
        | succ i =>
          rw [Function.iterate_succ_apply]
          exact hall i (by omega)
      · rw [Function.iterate_succ_apply]
        exact hge
    · rw [if_neg hc]
      exact ⟨0, rfl, fun j hj => absurd hj (Nat.not_lt_zero j), by simpa using by omega⟩

theorem iter_ord_reflect {step : Date → Date} (hs : StepUp step) {a : Date} (hv : a.Valid)
    {j k : ℕ} (h : toOrdinal (step^[j] a) < toOrdinal (step^[k] a)) : j < k := by
  by_contra hc
  have := iter_ord_le hs hv (Nat.le_of_not_lt hc)
  omega

theorem upTo_min {step : Date → Date} (hs : StepUp step) {target a : Date} (hv : a.Valid)
    (m : ℕ) (hm : toOrdinal target ≤ toOrdinal (step^[m] a)) :
    toOrdinal (upTo step target a).2 ≤ toOrdinal (step^[m] a) := by
  obtain ⟨k, hk, hall, hge⟩ := upTo_spec hs target a hv
  rw [hk]
  rcases Nat.lt_or_ge m k with hmk | hmk
  · exact absurd (hall m hmk) (by omega)
  · exact iter_ord_le hs hv hmk

theorem upTo_hit {step : Date → Date} (hs : StepUp step) {a : Date} (hv : a.Valid)
    (m : ℕ) : (upTo step (step^[m] a) a).2 = step^[m] a := by
  obtain ⟨k, hk, hall, hge⟩ := upTo_spec hs (step^[m] a) a hv
  have hmin := upTo_min hs hv m (le_refl _)
  rw [hk] at hmin ⊢
  have : toOrdinal (step^[k] a) = toOrdinal (step^[m] a) := by omega
  exact ord_inj (iter_valid hs hv k) (iter_valid hs hv m) this

/- The result of the last_due_date loop: it is the iterate whose successor
reaches the target, i.e. the latest occurrence o with o = anchor or o < target. -/
theorem upBelow_max {step : Date → Date} (hs : StepUp step) {target a : Date}
    (hv : a.Valid) (m : ℕ)
    (hm : step^[m] a = a ∨ toOrdinal (step^[m] a) < toOrdinal target) :
    toOrdinal (step^[m] a) ≤ toOrdinal (upBelow step target a).2 := by
  obtain ⟨k, hk, hall, hge⟩ := upBelow_spec hs target a hv
  rw [hk]
  rcases Nat.lt_or_ge k m with hmk | hmk
  · rcases hm with hm | hm
    · have h0 : toOrdinal (step^[0] a) ≤ toOrdinal (step^[k] a) := iter_ord_le hs hv (by omega)
      simp only [Function.iterate_zero, id_eq] at h0
      rw [hm]
      exact h0
    · have hk1 : toOrdinal (step^[k + 1] a) ≤ toOrdinal (step^[m] a) := iter_ord_le hs hv (by omega)
      rw [Function.iterate_succ_apply'] at hk1
      omega
  · exact iter_ord_le hs hv hmk

theorem upBelow_le {step : Date → Date} (hs : StepUp step) (target : Date) {a : Date}
    (hv : a.Valid) :
    (upBelow step target a).2 = a ∨
      toOrdinal (upBelow step target a).2 < toOrdinal target := by
  obtain ⟨k, hk, hall, hge⟩ := upBelow_spec hs target a hv
  cases k with
  | zero => left; simpa using hk
  | succ i =>
    right
    rw [hk]
    have := hall i (by omega)
    simpa using this

theorem upBelow_at_iter {step : Date → Date} (hs : StepUp step) {a : Date} (hv : a.Valid)
    {k : ℕ} (hk : 1 ≤ k) :
    (upBelow step (step^[k] a) a).2 = step^[k - 1] a := by
  obtain ⟨j, hj, hall, hge⟩ := upBelow_spec hs (step^[k] a) a hv
  have hub : j ≤ k - 1 := by
    by_contra hc
    have h1 := hall (k - 1) (by omega)
    have he : k - 1 + 1 = k := by omega
    rw [he] at h1
    omega
  have hlb : k - 1 ≤ j := by
    have hge2 : toOrdinal (step^[k] a) ≤ toOrdinal (step^[j + 1] a) := by
      rw [Function.iterate_succ_apply']
      exact hge
    by_contra hc
    have hjk : j + 1 < k := by omega
    have := iter_ord_lt hs hv hjk
    omega
  have hjk : j = k - 1 := by omega
  rw [hj, hjk]

/- The Bill data model (bill_tracker.py, class Bill).  The per-bill schedule
configuration (day / weekday / month) is consumed by __post_init__ to derive the
lastPaid anchor; the derivation is modelled separately below. -/
structure Bill where
  name : String
  amount : ℚ
  cycle : Cycle
  lastPaid : Date
  assumePaid : Bool
  unpaid : Bool
  paid_next : Bool
deriving DecidableEq, Repr

/- Bill.is_due: step last_billed forward from the anchor while it is before
due_date, then compare for equality. -/
def Bill.is_due (b : Bill) (due_date : Date) : Bool :=
  decide ((upTo (addCycle b.cycle) due_date b.lastPaid).2 = due_date)

/- Bill.next_due_date: step forward from the anchor until reaching start_date. -/
def Bill.next_due_date (b : Bill) (start_date : Date) : Date :=
  (upTo (addCycle b.cycle) start_date b.lastPaid).2

/- The loop of Bill.last_due_date: step while the next step is before start_date. -/
def Bill.last_due_aux (b : Bill) (start_date : Date) : Date :=
  (upBelow (addCycle b.cycle) start_date b.lastPaid).2

/- Bill.last_due_date with its unpaid recursion (depth at most one, because the
recursive call passes ignore_unpaid = true). -/
def Bill.last_due_date (b : Bill) (start_date : Date) (ignore_unpaid : Bool) : Date :=
  if b.unpaid && !ignore_unpaid then b.last_due_aux (b.last_due_aux start_date)
  else b.last_due_aux start_date

/- An occurrence of the bill: a date reached from the anchor by whole cycles. -/
def Bill.IsOcc (b : Bill) (o : Date) : Prop :=
  ∃ k : ℕ, (addCycle b.cycle)^[k] b.lastPaid = o

theorem stepUp_addDays {pp : ℕ} (hpp : 1 ≤ pp) : StepUp (addDays pp) := by
  intro x hx
  have h := toOrdinal_addDays (d := x) pp hx
  exact ⟨h.2, by omega⟩

/- pay_days_since: count pay days from last_pay_day backwards that are on or
after since_date. -/
def pay_days_since (since_date last_pay_day : Date) (pay_period : ℕ) : ℕ :=
  (downCount pay_period since_date last_pay_day).1

/- pay_days_until: count pay days strictly after last_pay_day + pay_period
... starting at last_pay_day + pay_period, while before until_date. -/
def pay_days_until (until_date last_pay_day : Date) (pay_period : ℕ) : ℕ :=
  (upTo (addDays pay_period) until_date (addDays pay_period last_pay_day)).1

/- is_pay_day: step from last_pay_day toward d by whole pay periods and
compare. -/
def is_pay_day (d last_pay_day : Date) (pay_period : ℕ) : Bool :=
  if toOrdinal d < toOrdinal last_pay_day then
    decide ((downTo pay_period d last_pay_day).2 = d)
  else
    decide ((upTo (addDays pay_period) d last_pay_day).2 = d)

/- Modelled from the spec: the PaymentCache binding imported by bill_tracker.py
(the payment_cache package initializer choosing a backend is not under src/);
section 4.3 specifies exactly isPaid (pure membership) and markPaid (idempotent
insert), which both shipped backends implement over (billName, occurrenceDate)
pairs. -/
abbrev Cache := List (String × Date)

def cache_is_paid (c : Cache) (n : String) (d : Date) : Bool :=
  decide ((n, d) ∈ c)

def cache_mark_paid (c : Cache) (n : String) (d : Date) : Cache :=
  if (n, d) ∈ c then c else (n, d) :: c

/- Python round(x, 2): round half to even at two decimal places. -/
def round2 (q : ℚ) : ℚ :=
  (((if q * 100 - Int.floor (q * 100) < 1 / 2 then Int.floor (q * 100)
     else if (1 : ℚ) / 2 < q * 100 - Int.floor (q * 100) then Int.floor (q * 100) + 1
     else if Even (Int.floor (q * 100)) then Int.floor (q * 100)
     else Int.floor (q * 100) + 1 : ℤ) : ℚ)) / 100

theorem round2_cent (n : ℤ) : round2 ((n : ℚ) / 100) = (n : ℚ) / 100 := by
  unfold round2
  have hx : ((n : ℚ) / 100) * 100 = (n : ℚ) := by field_simp
  rw [hx]
  have hf : Int.floor ((n : ℚ)) = n := Int.floor_intCast n
  rw [hf]
  rw [if_pos (by norm_num)]

/- The proration tail of Bill.needed_balance (everything after the
payment-confirmation block). -/
def prorate (b : Bill) (last_payment next_payment last_pay_day : Date)
    (pay_period : ℕ) : ℚ :=
  let pds : ℤ := pay_days_since last_payment last_pay_day pay_period
  let pds2 : ℤ := if is_pay_day last_payment last_pay_day pay_period then pds - 1 else pds
  let pdu : ℤ := pay_days_until next_payment last_pay_day pay_period
  let total : ℤ := pds2 + pdu
  let payments_before : ℕ :=
    (upTo (addCycle b.cycle) (addDays pay_period last_pay_day) next_payment).1
  if 1 < payments_before ∨ total = 0 then b.amount * payments_before
  else round2 (b.amount * ((pds2 : ℚ) / (total : ℚ)))

/- Bill.needed_balance.  Python mutates self.unpaid and the global
PAYMENT_CACHE; the embedding returns (needed, updated bill, updated cache).
date.today() is the explicit today parameter. -/
def needed_balance (b : Bill) (on_day last_pay_day : Date) (pay_period : ℕ)
    (check : Bool) (check_handler : String → ℕ → Bool) (today : Date)
    (cache : Cache) : ℚ × Bill × Cache :=
  let last_payment := b.last_due_date on_day false
  let next_payment := addCycle b.cycle last_payment
  if check = true ∧ toOrdinal today - toOrdinal last_payment ≤ 3 then
    if cache_is_paid cache b.name last_payment then
      (prorate b last_payment next_payment last_pay_day pay_period, b, cache)
    else if b.assumePaid then
      (prorate b last_payment next_payment last_pay_day pay_period, b, cache)
    else if check_handler b.name 3 then
      (prorate b last_payment next_payment last_pay_day pay_period, b,
        cache_mark_paid cache b.name last_payment)
    else
      (b.amount, { b with unpaid := true }, cache)
  else
    (prorate b last_payment next_payment last_pay_day pay_period, b, cache)

/- ReservedItem: __post_init__ multiplies by quantity and applies sales tax. -/
structure ReservedItem where
  amount : ℚ
deriving DecidableEq, Repr

def mk_reserved_item (amount : ℚ) (quantity : ℕ) (addSalesTax : Bool)
    (sales_tax : ℚ) : ReservedItem :=
  ⟨amount * quantity * (if addSalesTax then 1 + sales_tax else 1)⟩

structure Budget where
  bills : List Bill
  pay_period_days : ℕ
  minimum_balance : ℚ
  reserved : List ReservedItem

/- get_allocations runs needed_balance over the bills with on_day = today and
the default pay_period of 14 days, threading bill mutations and the cache. -/
def get_allocations_go (last_pay_day : Date) (check : Bool)
    (handler : String → ℕ → Bool) (today : Date) :
    List Bill → Cache → List ℚ × List Bill × Cache
  | [], cache => ([], [], cache)
  | b :: rest, cache =>
    ((needed_balance b today last_pay_day 14 check handler today cache).1 ::
        (get_allocations_go last_pay_day check handler today rest
          (needed_balance b today last_pay_day 14 check handler today cache).2.2).1,
      (needed_balance b today last_pay_day 14 check handler today cache).2.1 ::
        (get_allocations_go last_pay_day check handler today rest
          (needed_balance b today last_pay_day 14 check handler today cache).2.2).2.1,
      (get_allocations_go last_pay_day check handler today rest
        (needed_balance b today last_pay_day 14 check handler today cache).2.2).2.2)

def get_allocations (budget : Budget) (last_pay_day : Date) (check : Bool)
    (handler : String → ℕ → Bool) (today : Date) (cache : Cache) :
    List ℚ × List Bill × Cache :=
  get_allocations_go last_pay_day check handler today budget.bills cache

/- find_current_margin: margin = balance - minimum_balance - total allocated,
rounded down to a multiple of 10 when round_margin is set. -/
def find_current_margin (budget : Budget) (last_pay_day : Date)
    (current_balance : ℚ) (round_margin : Bool) (check : Bool)
    (handler : String → ℕ → Bool) (today : Date) (cache : Cache) :
    (ℚ × List ℚ) × List Bill × Cache :=
  let r := get_allocations budget last_pay_day check handler today cache
  let margin := current_balance - budget.minimum_balance - r.1.sum
  if round_margin then
    (((((Int.floor (margin / 10) : ℤ) : ℚ) * 10), r.1), r.2)
  else ((margin, r.1), r.2)

def apply_reservations : ℚ → List ℚ → List ReservedItem → ℚ × List ℚ
  | margin, allocations, [] => (margin, allocations)
  | margin, allocations, item :: rest =>
    apply_reservations (margin - item.amount) (allocations ++ [item.amount]) rest

/- Ledger.calculate: round the margin first (find_current_margin defaults
round_margin = True), then apply the reservations. -/
def Ledger.calculate (budget : Budget) (last_pay_day : Date) (balance : ℚ)
    (check_recent : Bool) (handler : String → ℕ → Bool) (today : Date)
    (cache : Cache) : (ℚ × List ℚ) × List Bill × Cache :=
  ((apply_reservations
      (find_current_margin budget last_pay_day balance true check_recent handler today cache).1.1
      (find_current_margin budget last_pay_day balance true check_recent handler today cache).1.2
      budget.reserved),
    (find_current_margin budget last_pay_day balance true check_recent handler today cache).2)

/- The JSON-backed payment cache (payment_cache_json.py): an in-memory mapping
bill name -> set of dates, persisted wholesale by save(). -/
structure PaymentCacheJSON where
  payments : List (String × List Date)
  payment_file : List (String × List Date)
deriving DecidableEq, Repr

def lookup_dates : List (String × List Date) → String → Option (List Date)
  | [], _ => none
  | (k, ds) :: rest, n => if k = n then some ds else lookup_dates rest n

def set_add (ds : List Date) (d : Date) : List Date :=
  if d ∈ ds then ds else ds ++ [d]

def add_date : List (String × List Date) → String → Date → List (String × List Date)
  | [], n, d => [(n, [d])]
  | (k, ds) :: rest, n, d =>
    if k = n then (k, set_add ds d) :: rest else (k, ds) :: add_date rest n d

/- is_paid inserts an empty set for an unseen bill name before testing
membership -- this mutates the in-memory mapping. -/
def PaymentCacheJSON.is_paid (s : PaymentCacheJSON) (n : String) (d : Date) :
    Bool × PaymentCacheJSON :=
  match lookup_dates s.payments n with
  | none => (false, { s with payments := s.payments ++ [(n, [])] })
  | some ds => (decide (d ∈ ds), s)

/- mark_paid adds the date to the bill's set and saves the whole mapping. -/
def PaymentCacheJSON.mark_paid (s : PaymentCacheJSON) (n : String) (d : Date) :
    PaymentCacheJSON :=
  ⟨add_date s.payments n d, add_date s.payments n d⟩

/- The semantic content of the JSON cache: is this pair recorded? -/
def sem_paid (s : PaymentCacheJSON) (n : String) (d : Date) : Bool :=
  match lookup_dates s.payments n with
  | none => false
  | some ds => decide (d ∈ ds)

/- The sqlite-backed payment cache (payment_cache_sqlite.py): a table with
PRIMARY KEY (bill, date).  mark_paid runs a plain INSERT, so inserting a
duplicate key raises IntegrityError, modelled as Except.error. -/
structure PaymentCacheSqlite where
  rows : List (String × Date)
deriving DecidableEq, Repr

def PaymentCacheSqlite.is_paid (s : PaymentCacheSqlite) (n : String) (d : Date) :
    Bool :=
  !(s.rows.filter (fun r => decide (r.1 = n ∧ r.2 = d))).isEmpty

def PaymentCacheSqlite.mark_paid (s : PaymentCacheSqlite) (n : String) (d : Date) :
    Except Unit PaymentCacheSqlite :=
  if (n, d) ∈ s.rows then Except.error () else Except.ok ⟨s.rows ++ [(n, d)]⟩

/- t_timespan: named cycles, or an arbitrary relativedelta keyword table. -/
inductive TimespanArg where
  | str (s : String)
  | table (c : Cycle)
deriving DecidableEq, Repr

def t_timespan : TimespanArg → Option Cycle
  | .str s =>
    if s.toLower.trim = "weekly" then some WEEKLY
    else if s.toLower.trim = "monthly" then some MONTHLY
    else if s.toLower.trim = "yearly" ∨ s.toLower.trim = "annual" then some YEARLY
    else none
  | .table c => some c

/- Bill.__post_init__ anchor derivation for a monthly bill: date(year, month,
day), falling back to the previous month when invalid (none models the
uncaught ValueError of the fallback), and stepping back one month when the
candidate is in the future. -/
def monthly_anchor (today : Date) (day : ℤ) : Option Date :=
  if (Date.mk today.year today.month day).Valid then
    (if toOrdinal today < toOrdinal ⟨today.year, today.month, day⟩ then
      some (addMonths (-1) ⟨today.year, today.month, day⟩)
    else some ⟨today.year, today.month, day⟩)
  else if 1 ≤ today.month - 1 ∧ (Date.mk today.year (today.month - 1) day).Valid then
    some ⟨today.year, today.month - 1, day⟩
  else none

/- Weekly anchor: step back one day at a time until the weekday matches. -/
def weekly_anchor_go : ℕ → ℤ → Date → Date
  | 0, _, cur => cur
  | f + 1, w, cur => if weekday cur = w then cur else weekly_anchor_go f w (predDate cur)

def weekly_anchor (today : Date) (w : ℤ) : Date := weekly_anchor_go 7 w today

/- Yearly anchor: date(year, month, day), stepped back one year if in the
future; none models the uncaught ValueError on an invalid date. -/
def yearly_anchor (today : Date) (month day : ℤ) : Option Date :=
  if (Date.mk today.year month day).Valid then
    (if toOrdinal today < toOrdinal ⟨today.year, month, day⟩ then
      some (addMonths (-12) ⟨today.year, month, day⟩)
    else some ⟨today.year, month, day⟩)
  else none

/- Helper lemmas for the margin claims. -/

theorem apply_reservations_spec :
    ∀ (res : List ReservedItem) (margin : ℚ) (allocs : List ℚ),
      (apply_reservations margin allocs res).1 =
        margin - (res.map ReservedItem.amount).sum := by
  intro res
  induction res with
  | nil => intro margin allocs; simp [apply_reservations]
  | cons item rest ih =>
    intro margin allocs
    simp only [apply_reservations, List.map_cons, List.sum_cons]
    rw [ih]
    ring

theorem floor_ten_le (x : ℚ) : ((Int.floor (x / 10) : ℤ) : ℚ) * 10 ≤ x := by
  have h := Int.floor_le (x / 10)
  linarith

/-- C3: the claim states Ledger.calculate reports
floor((balance - minimumBalance - Σ allocations - Σ reservations) / 10) * 10;
the code instead rounds before subtracting reservations.  With no bills,
minimum balance 0, balance 47.8 and a single reservation of 5, the code
reports 35 while the claimed value is 40. -/
theorem c3_counterexample :
    (Ledger.calculate ⟨[], 14, 0, [⟨5⟩]⟩ ⟨3, 1, 8⟩ (478 / 10) false
        (fun _ _ => true) ⟨3, 1, 10⟩ []).1.1 = 35 ∧
    ((Int.floor ((478 / 10 - 0 - 0 - 5 : ℚ) / 10) : ℤ) : ℚ) * 10 = 40 ∧
    (35 : ℚ) ≠ 40 := by
  refine ⟨?_, ?_, by norm_num⟩
  · have h2 : Int.floor ((478 : ℚ) / 10 / 10) = 4 := by
      rw [Int.floor_eq_iff]
      norm_num
    unfold Ledger.calculate find_current_margin get_allocations get_allocations_go
    rw [if_pos rfl]
    dsimp only
    norm_num [apply_reservations, h2]
  · have h2 : Int.floor ((478 / 10 - 0 - 0 - 5 : ℚ) / 10) = 4 := by
      rw [Int.floor_eq_iff]
      norm_num
    rw [h2]
    norm_num

/-- C3 (amended): Ledger.calculate returns the margin
floor((balance - minimumBalance - Σ allocations) / 10) * 10 - Σ reservations:
the rounding is applied before the reservations are subtracted, not after;
the reported margin is still never greater than the raw margin
balance - minimumBalance - Σ allocations - Σ reservations. -/
theorem c3_amended (budget : Budget) (last_pay_day : Date) (balance : ℚ)
    (check_recent : Bool) (handler : String → ℕ → Bool) (today : Date)
    (cache : Cache) :
    (Ledger.calculate budget last_pay_day balance check_recent handler today cache).1.1 =
      ((Int.floor ((balance - budget.minimum_balance -
          (get_allocations budget last_pay_day check_recent handler today cache).1.sum) / 10) : ℤ) : ℚ)
        * 10 - (budget.reserved.map ReservedItem.amount).sum ∧
    (Ledger.calculate budget last_pay_day balance check_recent handler today cache).1.1 ≤
      balance - budget.minimum_balance -
        (get_allocations budget last_pay_day check_recent handler today cache).1.sum -
        (budget.reserved.map ReservedItem.amount).sum := by
  have he : (Ledger.calculate budget last_pay_day balance check_recent handler today cache).1.1 =
      ((Int.floor ((balance - budget.minimum_balance -
          (get_allocations budget last_pay_day check_recent handler today cache).1.sum) / 10) : ℤ) : ℚ)
        * 10 - (budget.reserved.map ReservedItem.amount).sum := by
    unfold Ledger.calculate find_current_margin
    rw [if_pos rfl]
    exact apply_reservations_spec budget.reserved _ _
  refine ⟨he, ?_⟩
  rw [he]
  have := floor_ten_le (balance - budget.minimum_balance -
    (get_allocations budget last_pay_day check_recent handler today cache).1.sum)
  linarith

/-- C5: mark_paid is idempotent in the JSON backend, but the sqlite backend
issues a plain INSERT against PRIMARY KEY (bill, date), so the second
identical call violates the key and raises IntegrityError (modelled as
Except.error) instead of succeeding: the code contradicts the spec's
idempotence contract. -/
theorem c5_code_bug :
    PaymentCacheSqlite.mark_paid ⟨[]⟩ "Rent" ⟨3, 1, 1⟩ =
      Except.ok ⟨[("Rent", ⟨3, 1, 1⟩)]⟩ ∧
    PaymentCacheSqlite.mark_paid ⟨[("Rent", ⟨3, 1, 1⟩)]⟩ "Rent" ⟨3, 1, 1⟩ =
      Except.error () ∧
    PaymentCacheJSON.mark_paid (PaymentCacheJSON.mark_paid ⟨[], []⟩ "Rent" ⟨3, 1, 1⟩)
        "Rent" ⟨3, 1, 1⟩ =
      PaymentCacheJSON.mark_paid ⟨[], []⟩ "Rent" ⟨3, 1, 1⟩ := by
  refine ⟨rfl, ?_, ?_⟩
  · unfold PaymentCacheSqlite.mark_paid
    rw [if_pos (by decide)]
  · rfl

theorem lookup_dates_append (n n2 : String) :
    ∀ m : List (String × List Date),
      lookup_dates (m ++ [(n, [])]) n2 =
        match lookup_dates m n2 with
        | some ds => some ds
        | none => if n = n2 then some [] else none := by
  intro m
  induction m with
  | nil => simp [lookup_dates]
  | cons p rest ih =>
    by_cases hk : p.1 = n2
    · simp [lookup_dates, hk]
    · simp only [List.cons_append, lookup_dates, if_neg hk]
      exact ih

theorem sqlite_is_paid_iff (t : PaymentCacheSqlite) (n : String) (d : Date) :
    t.is_paid n d = true ↔ (n, d) ∈ t.rows := by
  unfold PaymentCacheSqlite.is_paid
  obtain ⟨rows⟩ := t
  dsimp only
  induction rows with
  | nil => simp
  | cons r rest ih =>
    rw [List.filter_cons]
    by_cases hr : r.1 = n ∧ r.2 = d
    · rw [if_pos (by simpa using hr)]
      simp only [List.isEmpty_cons, Bool.not_false, true_iff]
      exact List.mem_cons.mpr (Or.inl (Prod.ext hr.1 hr.2).symm)
    · rw [if_neg (by simpa using hr)]
      rw [ih]
      constructor
      · intro h
        exact List.mem_cons_of_mem r h
      · intro h
        rcases List.mem_cons.mp h with h | h
        · exact absurd ⟨congrArg Prod.fst h.symm, congrArg Prod.snd h.symm⟩ hr
        · exact h

/-- C8: the claim says isPaid never mutates the cache state in either backend;
but the JSON implementation inserts an empty entry for an unseen bill name
into its in-memory mapping, so the state after is_paid on a fresh cache
differs from the initial state. -/
theorem c8_counterexample :
    (PaymentCacheJSON.is_paid ⟨[], []⟩ "Rent" ⟨3, 1, 1⟩).2 ≠
      (⟨[], []⟩ : PaymentCacheJSON) := by
  decide

/-- C8 (amended): is_paid returns exactly the recorded-membership answer in
both backends; the sqlite backend's is_paid reads only; the JSON backend's
is_paid never touches the durable file and never changes the semantic
content of the mapping, though it may insert an empty in-memory entry for
an unseen bill name. -/
theorem c8_amended (s : PaymentCacheJSON) (t : PaymentCacheSqlite) (n : String)
    (d : Date) :
    (s.is_paid n d).1 = sem_paid s n d ∧
    (s.is_paid n d).2.payment_file = s.payment_file ∧
    (∀ (n2 : String) (d2 : Date), sem_paid (s.is_paid n d).2 n2 d2 = sem_paid s n2 d2) ∧
    (t.is_paid n d = true ↔ (n, d) ∈ t.rows) := by
  refine ⟨?_, ?_, ?_, ?_⟩
  · cases hl : lookup_dates s.payments n <;>
      simp [PaymentCacheJSON.is_paid, sem_paid, hl]
  · cases hl : lookup_dates s.payments n <;>
      simp [PaymentCacheJSON.is_paid, hl]
  · intro n2 d2
    cases hl : lookup_dates s.payments n with
    | some ds => simp [PaymentCacheJSON.is_paid, hl]
    | none =>
      simp only [PaymentCacheJSON.is_paid, hl, sem_paid]
      rw [lookup_dates_append]
      cases hl2 : lookup_dates s.payments n2 with
      | some ds => rfl
      | none =>
        by_cases hn : n = n2
        · simp [hn]
        · simp [hn]
  · exact sqlite_is_paid_iff t n d

/-- C9: the claim quantifies over every cycle accepted by t_timespan, which
accepts any relativedelta keyword table, including the all-zero offset; adding
that cycle to a date yields the same date, not a strictly later one. -/
theorem c9_counterexample :
    t_timespan (TimespanArg.table ⟨0, 0, 0, 0⟩) = some ⟨0, 0, 0, 0⟩ ∧
    addCycle ⟨0, 0, 0, 0⟩ ⟨3, 1, 5⟩ = ⟨3, 1, 5⟩ ∧
    ¬ toOrdinal ⟨3, 1, 5⟩ < toOrdinal (addCycle ⟨0, 0, 0, 0⟩ ⟨3, 1, 5⟩) := by
  refine ⟨rfl, by decide, by decide⟩

/-- C9 (amended): adding a cycle to any valid date yields a strictly later
valid date for every cycle whose month offset (12*years + months) and day
offset (7*weeks + days) are nonnegative with at least one positive -- in
particular for the named weekly, monthly and yearly cycles; t_timespan
however also accepts zero or negative custom offset tables, for which the
invariant fails. -/
theorem c9_amended (c : Cycle) (d : Date) (hv : d.Valid) (h1 : 0 ≤ c.monthShift)
    (h2 : 0 ≤ c.dayShift) (h3 : 0 < c.monthShift + c.dayShift) :
    toOrdinal d < toOrdinal (addCycle c d) ∧ (addCycle c d).Valid := by
  have h := cyclePos_of h1 h2 h3 d hv
  exact ⟨h.2, h.1⟩

theorem c9_amended_witness :
    toOrdinal ⟨3, 1, 5⟩ < toOrdinal (addCycle MONTHLY ⟨3, 1, 5⟩) ∧
    (addCycle MONTHLY ⟨3, 1, 5⟩).Valid :=
  c9_amended MONTHLY ⟨3, 1, 5⟩ (by decide) (by decide) (by decide) (by decide)

/-- C10: for every pay period of at least one day and valid date arguments, the
stepping loops of pay_days_since, pay_days_until and is_pay_day satisfy their
defining loop equations, exhibiting termination of each helper. -/
theorem c10_termination :
    (∀ (s lpd : Date) (pp : ℕ), lpd.Valid → 1 ≤ pp →
      pay_days_since s lpd pp =
        if toOrdinal s ≤ toOrdinal lpd then pay_days_since s (subDays pp lpd) pp + 1
        else 0) ∧
    (∀ (u lpd : Date) (pp : ℕ), lpd.Valid → 1 ≤ pp →
      pay_days_until u lpd pp =
        if toOrdinal (addDays pp lpd) < toOrdinal u then
          pay_days_until u (addDays pp lpd) pp + 1
        else 0) ∧
    (∀ (d lpd : Date) (pp : ℕ), d.Valid → lpd.Valid → 1 ≤ pp →
      is_pay_day d lpd pp =
        if toOrdinal d < toOrdinal lpd then is_pay_day d (subDays pp lpd) pp
        else if toOrdinal lpd < toOrdinal d then is_pay_day d (addDays pp lpd) pp
        else decide (lpd = d)) := by
  refine ⟨?_, ?_, ?_⟩
  · intro s lpd pp hv hpp
    unfold pay_days_since
    rw [downCount_eq hpp s hv]
    by_cases hc : toOrdinal s ≤ toOrdinal lpd
    · rw [if_pos hc, if_pos hc]
    · rw [if_neg hc, if_neg hc]
  · intro u lpd pp hv hpp
    unfold pay_days_until
    rw [upTo_eq (stepUp_addDays hpp) u (toOrdinal_addDays pp hv).2]
    by_cases hc : toOrdinal (addDays pp lpd) < toOrdinal u
    · rw [if_pos hc, if_pos hc]
    · rw [if_neg hc, if_neg hc]
  · intro d lpd pp hvd hvl hpp
    have hvsub := (toOrdinal_subDays (d := lpd) pp hvl).2
    have hosub := (toOrdinal_subDays (d := lpd) pp hvl).1
    have hvadd := (toOrdinal_addDays (d := lpd) pp hvl).2
    have hoadd := (toOrdinal_addDays (d := lpd) pp hvl).1
    unfold is_pay_day
    by_cases h1 : toOrdinal d < toOrdinal lpd
    · rw [if_pos h1, if_pos h1, downTo_eq hpp d hvl, if_pos h1]
      by_cases h2 : toOrdinal d < toOrdinal (subDays pp lpd)
      · rw [if_pos h2]
      · rw [if_neg h2]
        rw [downTo_eq hpp d hvsub, if_neg h2]
        have hle : toOrdinal (subDays pp lpd) ≤ toOrdinal d := not_lt.mp h2
        rcases eq_or_lt_of_le hle with he | hlt
        · rw [upTo_eq (stepUp_addDays hpp) d hvsub, if_neg (by omega)]
        · have hcancel : addDays pp (subDays pp lpd) = lpd := by
            apply ord_inj (toOrdinal_addDays pp hvsub).2 hvl
            have := (toOrdinal_addDays (d := subDays pp lpd) pp hvsub).1
            omega
          rw [upTo_eq (stepUp_addDays hpp) d hvsub, if_pos hlt]
          have hne1 : ¬ (subDays pp lpd = d) := fun hc => by rw [hc] at hlt; omega
          have hne2 : ¬ (lpd = d) := fun hc => by rw [hc] at h1; omega
          simp only [hcancel]
          rw [upTo_eq (stepUp_addDays hpp) d hvl, if_neg (by omega)]
          simp [hne1, hne2]
    · rw [if_neg h1]
      rw [if_neg h1]
      by_cases h2 : toOrdinal lpd < toOrdinal d
      · rw [if_pos h2]
        rw [upTo_eq (stepUp_addDays hpp) d hvl, if_pos h2]
        by_cases h3 : toOrdinal d < toOrdinal (addDays pp lpd)
        · rw [if_pos h3]
          rw [upTo_eq (stepUp_addDays hpp) d hvadd, if_neg (by omega)]
          rw [downTo_eq hpp d hvadd, if_pos h3]
          have hcancel : subDays pp (addDays pp lpd) = lpd := by
            apply ord_inj (toOrdinal_subDays pp hvadd).2 hvl
            have := (toOrdinal_subDays (d := addDays pp lpd) pp hvadd).1
            omega
          have hne1 : ¬ (addDays pp lpd = d) := fun hc => by rw [hc] at h3; omega
          have hne2 : ¬ (lpd = d) := fun hc => by rw [hc] at h2; omega
          simp only [hcancel]
          rw [downTo_eq hpp d hvl, if_neg (by omega)]
          simp [hne1, hne2]
        · rw [if_neg h3]
      · rw [if_neg h2]
        rw [upTo_eq (stepUp_addDays hpp) d hvl, if_neg (by omega)]

theorem c10_termination_witness :
    (pay_days_since ⟨3, 1, 1⟩ ⟨3, 1, 15⟩ 14 =
      if toOrdinal ⟨3, 1, 1⟩ ≤ toOrdinal ⟨3, 1, 15⟩ then
        pay_days_since ⟨3, 1, 1⟩ (subDays 14 ⟨3, 1, 15⟩) 14 + 1
      else 0) ∧
    (pay_days_until ⟨3, 2, 1⟩ ⟨3, 1, 15⟩ 14 =
      if toOrdinal (addDays 14 ⟨3, 1, 15⟩) < toOrdinal ⟨3, 2, 1⟩ then
        pay_days_until ⟨3, 2, 1⟩ (addDays 14 ⟨3, 1, 15⟩) 14 + 1
      else 0) ∧
    (is_pay_day ⟨3, 1, 1⟩ ⟨3, 1, 15⟩ 14 =
      if toOrdinal ⟨3, 1, 1⟩ < toOrdinal ⟨3, 1, 15⟩ then
        is_pay_day ⟨3, 1, 1⟩ (subDays 14 ⟨3, 1, 15⟩) 14
      else if toOrdinal ⟨3, 1, 15⟩ < toOrdinal ⟨3, 1, 1⟩ then
        is_pay_day ⟨3, 1, 1⟩ (addDays 14 ⟨3, 1, 15⟩) 14
      else decide (⟨3, 1, 15⟩ = (⟨3, 1, 1⟩ : Date))) :=
  ⟨c10_termination.1 ⟨3, 1, 1⟩ ⟨3, 1, 15⟩ 14 (by decide) (by decide),
   c10_termination.2.1 ⟨3, 2, 1⟩ ⟨3, 1, 15⟩ 14 (by decide) (by decide),
   c10_termination.2.2 ⟨3, 1, 1⟩ ⟨3, 1, 15⟩ 14 (by decide) (by decide) (by decide)⟩

/-- C1: the claim asserts last_due_date(onDay) returns the latest occurrence
less than or equal to onDay; but the loop steps only while the next
occurrence is strictly before onDay, so when onDay is itself an occurrence
later than the anchor the occurrence onDay is skipped: for a monthly bill
anchored 0003-01-01 with its unpaid flag clear and onDay = 0003-02-01,
onDay is a valid occurrence <= onDay yet last_due_date returns 0003-01-01. -/
theorem c1_counterexample :
    Bill.last_due_date ⟨"Rent", 1200, MONTHLY, ⟨3, 1, 1⟩, false, false, false⟩
        ⟨3, 2, 1⟩ false = ⟨3, 1, 1⟩ ∧
    Bill.is_due ⟨"Rent", 1200, MONTHLY, ⟨3, 1, 1⟩, false, false, false⟩ ⟨3, 2, 1⟩ = true ∧
    toOrdinal ⟨3, 1, 1⟩ < toOrdinal (⟨3, 2, 1⟩ : Date) := by
  refine ⟨by decide, by decide, by decide⟩

/-- C1 (amended): for a bill with a positive cycle, anchor on or before onDay
and unpaid flag clear: last_due_date(onDay) is an occurrence <= onDay, and is
the latest occurrence that is the anchor itself or strictly before onDay
(when onDay is an occurrence later than the anchor, the returned date is the
occurrence one cycle earlier, not onDay); next_due_date(onDay+1) is the
earliest occurrence strictly after onDay; hence
last_due_date(onDay) <= onDay < next_due_date(onDay+1), and both returned
dates satisfy is_due. -/
theorem c1_amended (b : Bill) (onDay : Date) (hc : CyclePos b.cycle)
    (hunp : b.unpaid = false) (hv : b.lastPaid.Valid) (hvd : onDay.Valid)
    (ha : toOrdinal b.lastPaid ≤ toOrdinal onDay) :
    b.IsOcc (b.last_due_date onDay false) ∧
    toOrdinal (b.last_due_date onDay false) ≤ toOrdinal onDay ∧
    (b.last_due_date onDay false = b.lastPaid ∨
      toOrdinal (b.last_due_date onDay false) < toOrdinal onDay) ∧
    (∀ o : Date, b.IsOcc o → (o = b.lastPaid ∨ toOrdinal o < toOrdinal onDay) →
      toOrdinal o ≤ toOrdinal (b.last_due_date onDay false)) ∧
    b.is_due (b.last_due_date onDay false) = true ∧
    b.IsOcc (b.next_due_date (succDate onDay)) ∧
    toOrdinal onDay < toOrdinal (b.next_due_date (succDate onDay)) ∧
    (∀ o : Date, b.IsOcc o → toOrdinal onDay < toOrdinal o →
      toOrdinal (b.next_due_date (succDate onDay)) ≤ toOrdinal o) ∧
    b.is_due (b.next_due_date (succDate onDay)) = true := by
  have hs : StepUp (addCycle b.cycle) := hc
  have hL : b.last_due_date onDay false = (upBelow (addCycle b.cycle) onDay b.lastPaid).2 := by
    unfold Bill.last_due_date Bill.last_due_aux
    rw [hunp]
    rfl
  have hsucc := toOrdinal_succ hvd
  obtain ⟨k, hk, hallk, hgek⟩ := upBelow_spec hs onDay b.lastPaid hv
  obtain ⟨j, hj, hallj, hgej⟩ := upTo_spec hs (succDate onDay) b.lastPaid hv
  have hNo : b.next_due_date (succDate onDay) = (upTo (addCycle b.cycle) (succDate onDay) b.lastPaid).2 := rfl
  refine ⟨?_, ?_, ?_, ?_, ?_, ?_, ?_, ?_, ?_⟩
  · rw [hL, hk]
    exact ⟨k, rfl⟩
  · rw [hL]
    rcases upBelow_le hs onDay hv with h | h
    · rw [h]; exact ha
    · omega
  · rw [hL]
    exact upBelow_le hs onDay hv
  · intro o ho hor
    obtain ⟨m, hm⟩ := ho
    rw [hL, ← hm]
    apply upBelow_max hs hv m
    rcases hor with h | h
    · left; rw [hm, h]
    · right; rw [hm]; exact h
  · rw [hL, hk]
    unfold Bill.is_due
    exact decide_eq_true (upTo_hit hs hv k)
  · rw [hNo, hj]
    exact ⟨j, rfl⟩
  · rw [hNo, hj]
    omega
  · intro o ho hor
    obtain ⟨m, hm⟩ := ho
    rw [hNo, ← hm]
    apply upTo_min hs hv m
    rw [hm]
    omega
  · rw [hNo, hj]
    unfold Bill.is_due
    exact decide_eq_true (upTo_hit hs hv j)

theorem c1_amended_witness :
    Bill.IsOcc ⟨"Rent", 1200, MONTHLY, ⟨3, 1, 5⟩, false, false, false⟩
      (Bill.last_due_date ⟨"Rent", 1200, MONTHLY, ⟨3, 1, 5⟩, false, false, false⟩
        ⟨3, 2, 20⟩ false) ∧
    toOrdinal (Bill.last_due_date ⟨"Rent", 1200, MONTHLY, ⟨3, 1, 5⟩, false, false, false⟩
        ⟨3, 2, 20⟩ false) ≤ toOrdinal ⟨3, 2, 20⟩ ∧
    Bill.is_due ⟨"Rent", 1200, MONTHLY, ⟨3, 1, 5⟩, false, false, false⟩
      (Bill.last_due_date ⟨"Rent", 1200, MONTHLY, ⟨3, 1, 5⟩, false, false, false⟩
        ⟨3, 2, 20⟩ false) = true ∧
    toOrdinal ⟨3, 2, 20⟩ <
      toOrdinal (Bill.next_due_date ⟨"Rent", 1200, MONTHLY, ⟨3, 1, 5⟩, false, false, false⟩
        (succDate ⟨3, 2, 20⟩)) ∧
    toOrdinal (⟨3, 2, 5⟩ : Date) ≤
      toOrdinal (Bill.last_due_date ⟨"Rent", 1200, MONTHLY, ⟨3, 1, 5⟩, false, false, false⟩
        ⟨3, 2, 20⟩ false) := by
  have h := c1_amended ⟨"Rent", 1200, MONTHLY, ⟨3, 1, 5⟩, false, false, false⟩ ⟨3, 2, 20⟩
    cyclePos_monthly rfl (by decide) (by decide) (by decide)
  exact ⟨h.1, h.2.1, h.2.2.2.2.1, h.2.2.2.2.2.2.1,
    h.2.2.2.1 ⟨3, 2, 5⟩ ⟨1, by decide⟩ (Or.inr (by decide))⟩

/-- C4: the claim's denied branch: unpaid flag set, amount returned, and the
last payment shifted back one full cycle.  The flag and the returned amount
are as claimed, but when the computed last due date is the anchor itself
(a bill anchored today), nothing observable shifts: the updated bill's
last_due_date still returns the anchor, and adding one cycle to it does not
give back the old last due date. -/
theorem c4_counterexample :
    needed_balance ⟨"A", 10, MONTHLY, ⟨3, 2, 1⟩, false, false, false⟩ ⟨3, 2, 1⟩
        ⟨3, 1, 15⟩ 14 true (fun _ _ => false) ⟨3, 2, 1⟩ [] =
      (10, ⟨"A", 10, MONTHLY, ⟨3, 2, 1⟩, false, true, false⟩, []) ∧
    (toOrdinal ⟨3, 2, 1⟩ -
        toOrdinal (Bill.last_due_date ⟨"A", 10, MONTHLY, ⟨3, 2, 1⟩, false, false, false⟩
          ⟨3, 2, 1⟩ false) ≤ 3) ∧
    Bill.last_due_date ⟨"A", 10, MONTHLY, ⟨3, 2, 1⟩, false, true, false⟩ ⟨3, 2, 1⟩ false =
      Bill.last_due_date ⟨"A", 10, MONTHLY, ⟨3, 2, 1⟩, false, false, false⟩ ⟨3, 2, 1⟩ false ∧
    addCycle MONTHLY
        (Bill.last_due_date ⟨"A", 10, MONTHLY, ⟨3, 2, 1⟩, false, true, false⟩ ⟨3, 2, 1⟩ false) ≠
      Bill.last_due_date ⟨"A", 10, MONTHLY, ⟨3, 2, 1⟩, false, false, false⟩ ⟨3, 2, 1⟩ false := by
  refine ⟨by decide, by decide, by decide, by decide⟩

/-- C4 (amended): with confirmation checking enabled, the computed last due
date within the 3-day window of today, the pair absent from the cache, the
bill not assumePaid and the handler denying payment, needed_balance sets the
unpaid flag, leaves the cache unchanged and returns exactly the full amount;
and provided the computed last due date is not the anchor itself, the
updated bill's effective last due date is one full cycle earlier (stepping
it forward one cycle gives back the old last due date). -/
theorem c4_amended (b : Bill) (onDay last_pay_day today : Date) (pay_period : ℕ)
    (handler : String → ℕ → Bool) (cache : Cache)
    (hc : CyclePos b.cycle) (hv : b.lastPaid.Valid) (hunp : b.unpaid = false)
    (hrecent : toOrdinal today - toOrdinal (b.last_due_date onDay false) ≤ 3)
    (hcache : cache_is_paid cache b.name (b.last_due_date onDay false) = false)
    (hassume : b.assumePaid = false)
    (hhandler : handler b.name 3 = false) :
    needed_balance b onDay last_pay_day pay_period true handler today cache =
      (b.amount, { b with unpaid := true }, cache) ∧
    ({ b with unpaid := true } : Bill).unpaid = true ∧
    (b.last_due_date onDay false ≠ b.lastPaid →
      addCycle b.cycle (Bill.last_due_date { b with unpaid := true } onDay false) =
        b.last_due_date onDay false) := by
  have hs : StepUp (addCycle b.cycle) := hc
  refine ⟨?_, rfl, ?_⟩
  · simp only [needed_balance]
    rw [if_pos ⟨trivial, hrecent⟩, hcache, hassume, hhandler]
    simp
  · intro hL
    have haux : b.last_due_date onDay false = b.last_due_aux onDay := by
      unfold Bill.last_due_date
      rw [hunp]
      rfl
    have haux2 : Bill.last_due_date { b with unpaid := true } onDay false =
        b.last_due_aux (b.last_due_aux onDay) := by
      unfold Bill.last_due_date
      rfl
    obtain ⟨k, hk, hallk, hgek⟩ := upBelow_spec hs onDay b.lastPaid hv
    have hk1 : 1 ≤ k := by
      rcases Nat.eq_zero_or_pos k with h0 | h0
      · rw [haux] at hL
        unfold Bill.last_due_aux at hL
        rw [hk, h0] at hL
        simp at hL
      · exact h0
    rw [haux2, haux]
    unfold Bill.last_due_aux
    rw [hk]
    rw [upBelow_at_iter hs hv hk1]
    have : addCycle b.cycle ((addCycle b.cycle)^[k - 1] b.lastPaid) =
        (addCycle b.cycle)^[k - 1 + 1] b.lastPaid := by
      rw [Function.iterate_succ_apply']
    rw [this]
    have he : k - 1 + 1 = k := by omega
    rw [he]

theorem c4_amended_witness :
    needed_balance ⟨"A", 10, MONTHLY, ⟨3, 1, 1⟩, false, false, false⟩ ⟨3, 2, 2⟩ ⟨3, 1, 15⟩ 14
        true (fun _ _ => false) ⟨3, 2, 2⟩ [] =
      (10, ⟨"A", 10, MONTHLY, ⟨3, 1, 1⟩, false, true, false⟩, []) ∧
    addCycle MONTHLY
        (Bill.last_due_date ⟨"A", 10, MONTHLY, ⟨3, 1, 1⟩, false, true, false⟩ ⟨3, 2, 2⟩ false) =
      Bill.last_due_date ⟨"A", 10, MONTHLY, ⟨3, 1, 1⟩, false, false, false⟩ ⟨3, 2, 2⟩ false := by
  have h := c4_amended ⟨"A", 10, MONTHLY, ⟨3, 1, 1⟩, false, false, false⟩ ⟨3, 2, 2⟩ ⟨3, 1, 15⟩
    ⟨3, 2, 2⟩ 14 (fun _ _ => false) [] cyclePos_monthly (by decide) rfl (by decide) (by decide)
    rfl rfl
  exact ⟨h.1, h.2.2 (by decide)⟩

theorem cache_mark_then_paid (c : Cache) (n : String) (d : Date) :
    cache_is_paid (cache_mark_paid c n d) n d = true := by
  unfold cache_is_paid cache_mark_paid
  by_cases h : (n, d) ∈ c
  · rw [if_pos h]
    exact decide_eq_true h
  · rw [if_neg h]
    exact decide_eq_true (List.mem_cons_self _ _)

/-- C7: the claim asserts calling needed_balance twice with identical
arguments and no cache mutation in between yields identical results; but when
the confirmation handler denies payment, the first call sets the bill's
unpaid flag, which shifts the effective last due date of the second call one
cycle back: for a monthly bill anchored 0003-01-01 queried on 0003-02-02
with a denying handler, the first call returns the full amount 10 and the
second returns the proration 5. -/
theorem c7_counterexample :
    (needed_balance ⟨"A", 10, MONTHLY, ⟨3, 1, 1⟩, false, false, false⟩ ⟨3, 2, 2⟩ ⟨3, 1, 15⟩ 14
        true (fun _ _ => false) ⟨3, 2, 2⟩ []).1 = 10 ∧
    (needed_balance
        (needed_balance ⟨"A", 10, MONTHLY, ⟨3, 1, 1⟩, false, false, false⟩ ⟨3, 2, 2⟩ ⟨3, 1, 15⟩ 14
          true (fun _ _ => false) ⟨3, 2, 2⟩ []).2.1
        ⟨3, 2, 2⟩ ⟨3, 1, 15⟩ 14 true (fun _ _ => false) ⟨3, 2, 2⟩
        (needed_balance ⟨"A", 10, MONTHLY, ⟨3, 1, 1⟩, false, false, false⟩ ⟨3, 2, 2⟩ ⟨3, 1, 15⟩ 14
          true (fun _ _ => false) ⟨3, 2, 2⟩ []).2.2).1 = 5 ∧
    (10 : ℚ) ≠ 5 := by
  have hfst : (needed_balance ⟨"A", 10, MONTHLY, ⟨3, 1, 1⟩, false, false, false⟩ ⟨3, 2, 2⟩
      ⟨3, 1, 15⟩ 14 true (fun _ _ => false) ⟨3, 2, 2⟩ []) =
      (10, ⟨"A", 10, MONTHLY, ⟨3, 1, 1⟩, false, true, false⟩, []) := by
    simp only [needed_balance]
    rw [if_pos ⟨trivial, by decide⟩]
    have h1 : cache_is_paid [] "A" (Bill.last_due_date
        ⟨"A", 10, MONTHLY, ⟨3, 1, 1⟩, false, false, false⟩ ⟨3, 2, 2⟩ false) = false := by decide
    rw [h1]
    simp
  refine ⟨?_, ?_, by norm_num⟩
  · rw [hfst]
  · rw [hfst]
    have hL : Bill.last_due_date ⟨"A", 10, MONTHLY, ⟨3, 1, 1⟩, false, true, false⟩
        ⟨3, 2, 2⟩ false = ⟨3, 1, 1⟩ := by decide
    simp only [needed_balance]
    rw [hL]
    rw [if_neg (by decide)]
    have hN : addCycle MONTHLY ⟨3, 1, 1⟩ = ⟨3, 2, 1⟩ := by decide
    simp only
    rw [hN]
    simp only [prorate]
    have h1 : pay_days_since ⟨3, 1, 1⟩ ⟨3, 1, 15⟩ 14 = 2 := by decide
    have h2 : is_pay_day ⟨3, 1, 1⟩ ⟨3, 1, 15⟩ 14 = true := by decide
    have h3 : pay_days_until ⟨3, 2, 1⟩ ⟨3, 1, 15⟩ 14 = 1 := by decide
    have h4 : (upTo (addCycle MONTHLY) (addDays 14 ⟨3, 1, 15⟩) ⟨3, 2, 1⟩).1 = 0 := by decide
    rw [h1, h2, h3, h4]
    norm_num
    have h5 : (5 : ℚ) = ((500 : ℤ) : ℚ) / 100 := by norm_num
    rw [h5, round2_cent]

/-- C7 (amended): calling needed_balance twice with identical arguments and no
cache mutation in between yields identical results provided the first call
does not change the bill's unpaid flag (i.e. the confirmation handler did not
newly deny a recent payment); without that proviso the denied branch shifts
the second call's due-date computation one cycle back. -/
theorem c7_amended (b : Bill) (onDay last_pay_day today : Date) (pay_period : ℕ)
    (check : Bool) (handler : String → ℕ → Bool) (cache : Cache)
    (hnd : (needed_balance b onDay last_pay_day pay_period check handler today cache).2.1.unpaid
      = b.unpaid) :
    (needed_balance
        (needed_balance b onDay last_pay_day pay_period check handler today cache).2.1
        onDay last_pay_day pay_period check handler today
        (needed_balance b onDay last_pay_day pay_period check handler today cache).2.2).1 =
      (needed_balance b onDay last_pay_day pay_period check handler today cache).1 := by
  by_cases hcond : check = true ∧
      toOrdinal today - toOrdinal (b.last_due_date onDay false) ≤ 3
  · by_cases hcp : cache_is_paid cache b.name (b.last_due_date onDay false) = true
    · have hF : needed_balance b onDay last_pay_day pay_period check handler today cache =
          (prorate b (b.last_due_date onDay false)
            (addCycle b.cycle (b.last_due_date onDay false)) last_pay_day pay_period, b, cache) := by
        simp only [needed_balance]
        rw [if_pos hcond, if_pos hcp]
      rw [hF]
      simp only [needed_balance]
      rw [if_pos hcond, if_pos hcp]
    · have hcp2 : cache_is_paid cache b.name (b.last_due_date onDay false) = false := by
        rwa [Bool.not_eq_true] at hcp
      by_cases has : b.assumePaid = true
      · have hF : needed_balance b onDay last_pay_day pay_period check handler today cache =
            (prorate b (b.last_due_date onDay false)
              (addCycle b.cycle (b.last_due_date onDay false)) last_pay_day pay_period, b, cache) := by
          simp only [needed_balance]
          rw [if_pos hcond, hcp2, has]
          simp
        rw [hF]
        simp only [needed_balance]
        rw [if_pos hcond, hcp2, has]
        simp
      · have has2 : b.assumePaid = false := by rwa [Bool.not_eq_true] at has
        by_cases hh : handler b.name 3 = true
        · have hF : needed_balance b onDay last_pay_day pay_period check handler today cache =
              (prorate b (b.last_due_date onDay false)
                (addCycle b.cycle (b.last_due_date onDay false)) last_pay_day pay_period, b,
                cache_mark_paid cache b.name (b.last_due_date onDay false)) := by
            simp only [needed_balance]
            rw [if_pos hcond, hcp2, has2, hh]
            simp
          rw [hF]
          simp only [needed_balance]
          rw [if_pos hcond, cache_mark_then_paid, if_pos rfl]
        · have hh2 : handler b.name 3 = false := by rwa [Bool.not_eq_true] at hh
          have hF : needed_balance b onDay last_pay_day pay_period check handler today cache =
              (b.amount, { b with unpaid := true }, cache) := by
            simp only [needed_balance]
            rw [if_pos hcond, hcp2, has2, hh2]
            simp
          have hbu : b.unpaid = true := by
            rw [hF] at hnd
            exact hnd.symm
          have hbe : ({ b with unpaid := true } : Bill) = b := by
            obtain ⟨n1, a1, c1, l1, p1, u1, q1⟩ := b
            simp only at hbu
            rw [hbu]
          rw [hF]
          simp only
          rw [hbe, hF]
  · have hF : needed_balance b onDay last_pay_day pay_period check handler today cache =
        (prorate b (b.last_due_date onDay false)
          (addCycle b.cycle (b.last_due_date onDay false)) last_pay_day pay_period, b, cache) := by
      simp only [needed_balance]
      rw [if_neg hcond]
    rw [hF]
    simp only [needed_balance]
    rw [if_neg hcond]

theorem c7_amended_witness :
    (needed_balance
        (needed_balance ⟨"B", 7, MONTHLY, ⟨3, 1, 5⟩, false, false, false⟩ ⟨3, 2, 3⟩ ⟨3, 1, 25⟩ 14
          false (fun _ _ => true) ⟨3, 2, 3⟩ []).2.1
        ⟨3, 2, 3⟩ ⟨3, 1, 25⟩ 14 false (fun _ _ => true) ⟨3, 2, 3⟩
        (needed_balance ⟨"B", 7, MONTHLY, ⟨3, 1, 5⟩, false, false, false⟩ ⟨3, 2, 3⟩ ⟨3, 1, 25⟩ 14
          false (fun _ _ => true) ⟨3, 2, 3⟩ []).2.2).1 =
      (needed_balance ⟨"B", 7, MONTHLY, ⟨3, 1, 5⟩, false, false, false⟩ ⟨3, 2, 3⟩ ⟨3, 1, 25⟩ 14
        false (fun _ _ => true) ⟨3, 2, 3⟩ []).1 :=
  c7_amended ⟨"B", 7, MONTHLY, ⟨3, 1, 5⟩, false, false, false⟩ ⟨3, 2, 3⟩ ⟨3, 1, 25⟩ ⟨3, 2, 3⟩ 14
    false (fun _ _ => true) [] (by decide)

theorem last_due_window {b : Bill} (hc : CyclePos b.cycle) (hv : b.lastPaid.Valid)
    {d1 d2 : Date} (h12 : toOrdinal d1 ≤ toOrdinal d2)
    (h2 : toOrdinal d2 ≤ toOrdinal (addCycle b.cycle (b.last_due_aux d1))) :
    b.last_due_aux d2 = b.last_due_aux d1 := by
  have hs : StepUp (addCycle b.cycle) := hc
  obtain ⟨k, hk, hallk, hgek⟩ := upBelow_spec hs d1 b.lastPaid hv
  obtain ⟨j, hj, hallj, hgej⟩ := upBelow_spec hs d2 b.lastPaid hv
  unfold Bill.last_due_aux at h2 ⊢
  rw [hk] at h2
  have h2s : toOrdinal d2 ≤ toOrdinal ((addCycle b.cycle)^[k + 1] b.lastPaid) := by
    rw [Function.iterate_succ_apply']
    exact h2
  rw [hk, hj]
  have hle1 : toOrdinal ((addCycle b.cycle)^[k] b.lastPaid) ≤
      toOrdinal ((addCycle b.cycle)^[j] b.lastPaid) := by
    rw [← hj]
    apply upBelow_max hs hv k
    rcases upBelow_le hs d1 hv with h | h
    · left
      rw [← hk]
      exact h
    · right
      rw [hk] at h
      omega
  have hjk : j ≤ k := by
    by_contra hcj
    have h3 := hallj k (by omega)
    omega
  have hkj : k ≤ j := by
    by_contra hcj
    have := iter_ord_lt hs hv (show j < k by omega)
    omega
  have hje : j = k := by omega
  rw [hje]

theorem last_due_date_occ (b : Bill) (d : Date) (u : Bool) (hc : CyclePos b.cycle)
    (hv : b.lastPaid.Valid) :
    ∃ k : ℕ, (addCycle b.cycle)^[k] b.lastPaid = b.last_due_date d u := by
  have hs : StepUp (addCycle b.cycle) := hc
  unfold Bill.last_due_date
  by_cases hu : (b.unpaid && !u) = true
  · rw [if_pos hu]
    obtain ⟨k, hk, _, _⟩ := upBelow_spec hs (b.last_due_aux d) b.lastPaid hv
    exact ⟨k, (by rw [← hk]; rfl)⟩
  · rw [if_neg hu]
    obtain ⟨k, hk, _, _⟩ := upBelow_spec hs d b.lastPaid hv
    exact ⟨k, hk.symm⟩

theorem iter_addDays_ord (pp : ℕ) {a : Date} (hv : a.Valid) (m : ℕ) :
    toOrdinal ((addDays pp)^[m] a) = toOrdinal a + m * pp ∧ ((addDays pp)^[m] a).Valid := by
  induction m with
  | zero => simpa using hv
  | succ i ih =>
    rw [Function.iterate_succ_apply']
    have h := toOrdinal_addDays (d := (addDays pp)^[i] a) pp ih.2
    constructor
    · rw [h.1, ih.1]
      push_cast
      ring
    · exact h.2

theorem round2_amount_self {amt : ℚ} (h2dec : ∃ n : ℤ, amt = (n : ℚ) / 100) (x : ℚ)
    (hx : x ≠ 0) : round2 (amt * (x / x)) = amt := by
  rw [div_self hx, mul_one]
  obtain ⟨n, hn⟩ := h2dec
  rw [hn, round2_cent]

theorem prorate_full {b : Bill} {L lpd : Date} {pp : ℕ} (hc : CyclePos b.cycle)
    (hLv : L.Valid) (hlpdv : lpd.Valid) (hpp : 1 ≤ pp)
    (hN2 : toOrdinal (addCycle b.cycle L) < toOrdinal lpd + pp)
    (hone : toOrdinal lpd + pp ≤ toOrdinal (addCycle b.cycle (addCycle b.cycle L)))
    (h2dec : ∃ n : ℤ, b.amount = (n : ℚ) / 100) :
    prorate b L (addCycle b.cycle L) lpd pp = b.amount := by
  have hs : StepUp (addCycle b.cycle) := hc
  have hNv : (addCycle b.cycle L).Valid := (hc L hLv).1
  have hNo : toOrdinal L < toOrdinal (addCycle b.cycle L) := (hc L hLv).2
  have haddv := toOrdinal_addDays (d := lpd) pp hlpdv
  have hpdu : pay_days_until (addCycle b.cycle L) lpd pp = 0 := by
    unfold pay_days_until
    rw [upTo_eq (stepUp_addDays hpp) _ haddv.2, if_neg (by omega)]
  have hpb : (upTo (addCycle b.cycle) (addDays pp lpd) (addCycle b.cycle L)).1 = 1 := by
    rw [upTo_eq hs (addDays pp lpd) hNv, if_pos (by omega)]
    dsimp only
    rw [upTo_eq hs (addDays pp lpd) (hc _ hNv).1, if_neg (by omega)]
  simp only [prorate]
  rw [hpdu, hpb]
  by_cases hord : toOrdinal L ≤ toOrdinal lpd
  · have hpds1 : 1 ≤ pay_days_since L lpd pp := by
      unfold pay_days_since
      rw [downCount_eq hpp L hlpdv, if_pos hord]
      dsimp only
      omega
    by_cases hipd : is_pay_day L lpd pp = true
    · rw [hipd, if_pos rfl]
      by_cases hpds2 : pay_days_since L lpd pp = 1
      · rw [hpds2]
        rw [if_pos (by norm_num)]
        norm_num
      · rw [if_neg (by omega)]
        have hcast : (((pay_days_since L lpd pp : ℤ) - 1 + ((0 : ℕ) : ℤ) : ℤ) : ℚ) =
            (((pay_days_since L lpd pp : ℤ) - 1 : ℤ) : ℚ) := by
          push_cast
          ring
        rw [hcast]
        exact round2_amount_self h2dec _ (Int.cast_ne_zero.mpr (by omega))
    · have hipd2 : is_pay_day L lpd pp = false := by rwa [Bool.not_eq_true] at hipd
      rw [hipd2, if_neg Bool.false_ne_true]
      rw [if_neg (by omega)]
      have hcast : (((pay_days_since L lpd pp : ℤ) + ((0 : ℕ) : ℤ) : ℤ) : ℚ) =
          (((pay_days_since L lpd pp : ℤ) : ℤ) : ℚ) := by
        push_cast
        ring
      rw [hcast]
      exact round2_amount_self h2dec _ (Int.cast_ne_zero.mpr (by omega))
  · have hpds0 : pay_days_since L lpd pp = 0 := by
      unfold pay_days_since
      rw [downCount_eq hpp L hlpdv, if_neg hord]
    have hipd : is_pay_day L lpd pp = false := by
      unfold is_pay_day
      rw [if_neg (by omega)]
      rw [decide_eq_false]
      intro hcEq
      obtain ⟨m, hm, hallm, hgem⟩ := upTo_spec (stepUp_addDays hpp) L lpd hlpdv
      rw [hm] at hcEq
      have hmo := (iter_addDays_ord pp hlpdv m).1
      rw [hcEq] at hmo
      have hm1 : 1 ≤ m := by
        rcases Nat.eq_zero_or_pos m with h0 | h0
        · rw [h0] at hmo
          simp at hmo
          omega
        · exact h0
      have hmp : pp ≤ m * pp := Nat.le_mul_of_pos_left pp hm1
      have hmp2 : (pp : ℤ) ≤ (m : ℤ) * pp := by exact_mod_cast hmp
      omega
    rw [hpds0, hipd]
    simp only [Bool.false_eq_true, if_false]
    rw [if_pos (by norm_num)]
    norm_num

set_option maxRecDepth 4096 in
/-- C2: the claim says needed_balance equals exactly the bill's full amount
once the next due date falls inside the current pay period; but when more
than one occurrence falls before the next pay day the multiple-occurrence
branch allocates amount times the number of occurrences: for a weekly bill
of 60 anchored 0003-01-04 with last pay day 0003-01-08 and onDay 0003-01-10,
the next due date 0003-01-11 lies inside the current 14-day pay period yet
needed_balance returns 120, not 60. -/
theorem c2_counterexample :
    toOrdinal (⟨3, 1, 8⟩ : Date) <
      toOrdinal (addCycle WEEKLY (Bill.last_due_date
        ⟨"HF", 60, WEEKLY, ⟨3, 1, 4⟩, false, false, false⟩ ⟨3, 1, 10⟩ false)) ∧
    toOrdinal (addCycle WEEKLY (Bill.last_due_date
        ⟨"HF", 60, WEEKLY, ⟨3, 1, 4⟩, false, false, false⟩ ⟨3, 1, 10⟩ false)) <
      toOrdinal (⟨3, 1, 8⟩ : Date) + 14 ∧
    (needed_balance ⟨"HF", 60, WEEKLY, ⟨3, 1, 4⟩, false, false, false⟩ ⟨3, 1, 10⟩ ⟨3, 1, 8⟩ 14
        false (fun _ _ => true) ⟨3, 1, 10⟩ []).1 = 120 ∧
    (120 : ℚ) ≠ 60 := by
  refine ⟨by decide, by decide, ?_, by norm_num⟩
  simp only [needed_balance]
  rw [if_neg (by simp)]
  have hL : Bill.last_due_date ⟨"HF", 60, WEEKLY, ⟨3, 1, 4⟩, false, false, false⟩
      ⟨3, 1, 10⟩ false = ⟨3, 1, 4⟩ := by decide
  rw [hL]
  have hN : addCycle WEEKLY ⟨3, 1, 4⟩ = ⟨3, 1, 11⟩ := by decide
  rw [hN]
  simp only [prorate]
  have h1 : pay_days_since ⟨3, 1, 4⟩ ⟨3, 1, 8⟩ 14 = 1 := by decide
  have h2 : is_pay_day ⟨3, 1, 4⟩ ⟨3, 1, 8⟩ 14 = false := by decide
  have h3 : pay_days_until ⟨3, 1, 11⟩ ⟨3, 1, 8⟩ 14 = 0 := by decide
  have h4 : (upTo (addCycle WEEKLY) (addDays 14 ⟨3, 1, 8⟩) ⟨3, 1, 11⟩).1 = 2 := by decide
  rw [h1, h2, h3, h4, if_neg Bool.false_ne_true, if_pos (by norm_num)]
  norm_num

/-- C2 (amended): with confirmation checking disabled and a fixed last pay
day, needed_balance is constant (hence non-decreasing) in onDay throughout
the window that ends at the bill's next due date; and it equals exactly the
bill's full amount (a 2-decimal currency value) once that next due date
falls strictly inside the current pay period with no second occurrence
inside it -- when further occurrences also fall before the next pay day the
code instead allocates the amount once per occurrence. -/
theorem c2_amended :
    (∀ (b : Bill) (onDay1 onDay2 last_pay_day today : Date) (pay_period : ℕ)
        (handler : String → ℕ → Bool) (cache : Cache),
      CyclePos b.cycle → b.lastPaid.Valid →
      toOrdinal onDay1 ≤ toOrdinal onDay2 →
      toOrdinal onDay2 ≤ toOrdinal (addCycle b.cycle (b.last_due_date onDay1 true)) →
      (needed_balance b onDay1 last_pay_day pay_period false handler today cache).1 ≤
        (needed_balance b onDay2 last_pay_day pay_period false handler today cache).1) ∧
    (∀ (b : Bill) (onDay last_pay_day today : Date) (pay_period : ℕ)
        (handler : String → ℕ → Bool) (cache : Cache),
      CyclePos b.cycle → b.lastPaid.Valid → last_pay_day.Valid → 1 ≤ pay_period →
      toOrdinal (addCycle b.cycle (b.last_due_date onDay false)) <
        toOrdinal last_pay_day + pay_period →
      toOrdinal last_pay_day + pay_period ≤
        toOrdinal (addCycle b.cycle (addCycle b.cycle (b.last_due_date onDay false))) →
      (∃ n : ℤ, b.amount = (n : ℚ) / 100) →
      (needed_balance b onDay last_pay_day pay_period false handler today cache).1 =
        b.amount) := by
  constructor
  · intro b d1 d2 lpd today pp handler cache hc hv h12 hwin
    have hldt : b.last_due_date d1 true = b.last_due_aux d1 := by
      unfold Bill.last_due_date
      simp
    rw [hldt] at hwin
    have hw : b.last_due_aux d2 = b.last_due_aux d1 := last_due_window hc hv h12 hwin
    have hld : b.last_due_date d2 false = b.last_due_date d1 false := by
      unfold Bill.last_due_date
      rw [hw]
    simp only [needed_balance]
    rw [if_neg (by simp), if_neg (by simp), hld]
  · intro b onDay lpd today pp handler cache hc hv hlpdv hpp hN2 hone h2dec
    obtain ⟨k, hk⟩ := last_due_date_occ b onDay false hc hv
    have hLv : (b.last_due_date onDay false).Valid := by
      rw [← hk]
      exact iter_valid hc hv k
    simp only [needed_balance]
    rw [if_neg (by simp)]
    exact prorate_full hc hLv hlpdv hpp hN2 hone h2dec

theorem c2_amended_witness :
    (needed_balance ⟨"B", 7, MONTHLY, ⟨3, 1, 5⟩, false, false, false⟩ ⟨3, 2, 1⟩ ⟨3, 1, 25⟩ 14
        false (fun _ _ => true) ⟨3, 2, 1⟩ []).1 ≤
      (needed_balance ⟨"B", 7, MONTHLY, ⟨3, 1, 5⟩, false, false, false⟩ ⟨3, 2, 3⟩ ⟨3, 1, 25⟩ 14
        false (fun _ _ => true) ⟨3, 2, 1⟩ []).1 ∧
    (needed_balance ⟨"B", 7, MONTHLY, ⟨3, 1, 5⟩, false, false, false⟩ ⟨3, 2, 3⟩ ⟨3, 1, 25⟩ 14
        false (fun _ _ => true) ⟨3, 2, 1⟩ []).1 = 7 :=
  ⟨c2_amended.1 ⟨"B", 7, MONTHLY, ⟨3, 1, 5⟩, false, false, false⟩ ⟨3, 2, 1⟩ ⟨3, 2, 3⟩ ⟨3, 1, 25⟩
      ⟨3, 2, 1⟩ 14 (fun _ _ => true) [] cyclePos_monthly (by decide) (by decide) (by decide),
   c2_amended.2 ⟨"B", 7, MONTHLY, ⟨3, 1, 5⟩, false, false, false⟩ ⟨3, 2, 3⟩ ⟨3, 1, 25⟩ ⟨3, 2, 1⟩
      14 (fun _ _ => true) [] cyclePos_monthly (by decide) (by decide) (by decide) (by decide)
      (by decide) ⟨700, by norm_num⟩⟩

/- Monthly-cycle characterization machinery. -/

theorem addCycle_monthly {d : Date} (_hv : d.Valid) : addCycle MONTHLY d = addMonths 1 d := rfl

theorem monthly_step {d : Date} (hv : d.Valid) (h28 : d.day ≤ 28) :
    (addMonths 1 d).day = d.day ∧ (addMonths 1 d).Valid ∧
      midx (addMonths 1 d) = midx d + 1 ∧ (addMonths 1 d).day ≤ 28 := by
  have h1 := addMonths_day (d := d) 1 h28
  have h2 := addMonths_valid (d := d) 1 hv
  have h3 := addMonths_midx 1 d
  exact ⟨h1, h2, h3, by omega⟩

theorem monthly_iter_congr {a : Date} (hv : a.Valid) :
    ∀ k : ℕ, (addCycle MONTHLY)^[k] a = (addMonths 1)^[k] a ∧ ((addMonths 1)^[k] a).Valid := by
  intro k
  induction k with
  | zero => simpa using hv
  | succ i ih =>
    rw [Function.iterate_succ_apply', Function.iterate_succ_apply', ih.1]
    exact ⟨addCycle_monthly ih.2, addMonths_valid 1 ih.2⟩

theorem monthly_iter {a : Date} (hv : a.Valid) (h28 : a.day ≤ 28) :
    ∀ k : ℕ, ((addMonths 1)^[k] a).day = a.day ∧ ((addMonths 1)^[k] a).Valid ∧
      midx ((addMonths 1)^[k] a) = midx a + k := by
  intro k
  induction k with
  | zero =>
    rw [Function.iterate_zero_apply]
    exact ⟨rfl, hv, by push_cast; ring⟩
  | succ i ih =>
    obtain ⟨hd, hvv, hm⟩ := ih
    have hs := monthly_step hvv (by omega)
    rw [Function.iterate_succ_apply']
    refine ⟨by rw [hs.1, hd], hs.2.1, ?_⟩
    rw [hs.2.2.1, hm]
    push_cast
    ring

theorem monthly_reach :
    ∀ (n : ℕ) (a d : Date), a.Valid → a.day ≤ 28 → d.Valid → d.day = a.day →
      midx d = midx a + n → (addMonths 1)^[n] a = d := by
  intro n
  induction n with
  | zero =>
    intro a d hv h28 hvd hday hmid
    have hya : d.year = a.year ∧ d.month = a.month := by
      have b1 := hvd.1
      have b2 := hvd.2.1
      have c1 := hv.1
      have c2 := hv.2.1
      unfold midx at hmid
      push_cast at hmid
      omega
    simp only [Function.iterate_zero, id_eq]
    exact (date_ext hya.1 hya.2 hday).symm
  | succ i ih =>
    intro a d hv h28 hvd hday hmid
    have hs := monthly_step hv h28
    rw [Function.iterate_succ_apply]
    refine ih (addMonths 1 a) d hs.2.1 hs.2.2.2 hvd (by rw [hs.1]; exact hday) ?_
    rw [hs.2.2.1]
    push_cast at hmid ⊢
    omega

theorem monthly_is_due_iff {a d : Date} (nm : String) (amt : ℚ) (hv : a.Valid)
    (h28 : a.day ≤ 28) (hvd : d.Valid) :
    Bill.is_due ⟨nm, amt, MONTHLY, a, false, false, false⟩ d = true ↔
      (d.day = a.day ∧ toOrdinal a ≤ toOrdinal d) := by
  have hs : StepUp (addCycle MONTHLY) := cyclePos_monthly
  constructor
  · intro h
    unfold Bill.is_due at h
    have heq : (upTo (addCycle MONTHLY) d a).2 = d := of_decide_eq_true h
    obtain ⟨k, hk, hallk, hgek⟩ := upTo_spec hs d a hv
    rw [heq] at hk
    have hord : toOrdinal a ≤ toOrdinal d := by
      have h0 := iter_ord_le hs hv (Nat.zero_le k)
      simp only [Function.iterate_zero, id_eq] at h0
      rw [hk]
      exact h0
    have hcongr := monthly_iter_congr hv k
    have hit := monthly_iter hv h28 k
    refine ⟨?_, hord⟩
    rw [hk, hcongr.1]
    exact hit.1
  · intro hcond
    obtain ⟨hday, hord⟩ := hcond
    have hmid : midx a ≤ midx d := midx_le_of_ord_le hv hvd hord
    have hreach := monthly_reach (midx d - midx a).toNat a d hv h28 hvd hday (by omega)
    have hcongr := monthly_iter_congr hv (midx d - midx a).toNat
    have hocc : (addCycle MONTHLY)^[(midx d - midx a).toNat] a = d := by
      rw [hcongr.1, hreach]
    unfold Bill.is_due
    apply decide_eq_true
    show (upTo (addCycle MONTHLY) d a).2 = d
    rw [← hocc]
    exact upTo_hit hs hv _


/- Weekly-cycle characterization machinery. -/

theorem addCycle_weekly {d : Date} (hv : d.Valid) : addCycle WEEKLY d = addDays 7 d := by
  unfold addCycle
  have h1 : Cycle.monthShift WEEKLY = 0 := rfl
  rw [h1, addMonths_zero hv]
  rfl

theorem weekly_iter {a : Date} (hv : a.Valid) :
    ∀ k : ℕ, toOrdinal ((addCycle WEEKLY)^[k] a) = toOrdinal a + 7 * k ∧
      ((addCycle WEEKLY)^[k] a).Valid := by
  intro k
  induction k with
  | zero =>
    rw [Function.iterate_zero_apply]
    exact ⟨by push_cast; ring, hv⟩
  | succ i ih =>
    rw [Function.iterate_succ_apply', addCycle_weekly ih.2]
    have h := toOrdinal_addDays (d := (addCycle WEEKLY)^[i] a) 7 ih.2
    constructor
    · rw [h.1, ih.1]
      push_cast
      ring
    · exact h.2

theorem weekly_is_due_iff {a d : Date} (nm : String) (amt : ℚ) (hv : a.Valid)
    (hvd : d.Valid) :
    Bill.is_due ⟨nm, amt, WEEKLY, a, false, false, false⟩ d = true ↔
      (weekday d = weekday a ∧ toOrdinal a ≤ toOrdinal d) := by
  have hs : StepUp (addCycle WEEKLY) := cyclePos_weekly
  constructor
  · intro h
    unfold Bill.is_due at h
    have heq : (upTo (addCycle WEEKLY) d a).2 = d := of_decide_eq_true h
    obtain ⟨k, hk, hallk, hgek⟩ := upTo_spec hs d a hv
    rw [heq] at hk
    have hw := weekly_iter hv k
    constructor
    · unfold weekday
      rw [hk, hw.1]
      omega
    · rw [hk, hw.1]
      omega
  · intro hcond
    obtain ⟨hwd, hord⟩ := hcond
    unfold weekday at hwd
    have hw := weekly_iter hv ((toOrdinal d - toOrdinal a) / 7).toNat
    have hord2 : toOrdinal ((addCycle WEEKLY)^[((toOrdinal d - toOrdinal a) / 7).toNat] a) =
        toOrdinal d := by
      rw [hw.1]
      omega
    have hocc : (addCycle WEEKLY)^[((toOrdinal d - toOrdinal a) / 7).toNat] a = d :=
      ord_inj hw.2 hvd hord2
    unfold Bill.is_due
    apply decide_eq_true
    show (upTo (addCycle WEEKLY) d a).2 = d
    rw [← hocc]
    exact upTo_hit hs hv _

/- Yearly-cycle characterization machinery. -/

theorem addCycle_yearly (d : Date) : addCycle YEARLY d = addMonths 12 d := rfl

theorem dim_year_invariant (y1 y2 m : ℤ) (hm : m ≠ 2) :
    daysInMonth y1 m = daysInMonth y2 m := by
  unfold daysInMonth
  rw [if_neg hm, if_neg hm]

theorem yearly_step {d : Date} (hv : d.Valid) (hfeb : ¬(d.month = 2 ∧ d.day = 29)) :
    (addMonths 12 d).year = d.year + 1 ∧ (addMonths 12 d).month = d.month ∧
      (addMonths 12 d).day = d.day ∧ (addMonths 12 d).Valid := by
  have hvv := hv
  obtain ⟨hm1, hm2, hd1, hd2⟩ := hvv
  have he1 : (d.month - 1 + 12) / 12 = 1 := by omega
  have he2 : (d.month - 1 + 12) % 12 + 1 = d.month := by omega
  have hday : min d.day
      (daysInMonth (d.year + (d.month - 1 + 12) / 12) ((d.month - 1 + 12) % 12 + 1)) = d.day := by
    rw [he1, he2]
    by_cases hm : d.month = 2
    · have h29 : d.day ≤ 29 := by
        unfold daysInMonth at hd2
        rw [if_pos hm] at hd2
        split_ifs at hd2 <;> omega
      have h28 : d.day ≤ 28 := by
        rcases Decidable.eq_or_ne d.day 29 with he | he
        · exact absurd ⟨hm, he⟩ hfeb
        · omega
      have hb := daysInMonth_bounds (d.year + 1) d.month
      omega
    · rw [dim_year_invariant (d.year + 1) d.year d.month hm]
      omega
  refine ⟨?_, ?_, ?_, addMonths_valid 12 hv⟩
  · show d.year + (d.month - 1 + 12) / 12 = d.year + 1
    omega
  · show (d.month - 1 + 12) % 12 + 1 = d.month
    omega
  · show min d.day
        (daysInMonth (d.year + (d.month - 1 + 12) / 12) ((d.month - 1 + 12) % 12 + 1)) = d.day
    exact hday

theorem yearly_iter {a : Date} (hv : a.Valid) (hfeb : ¬(a.month = 2 ∧ a.day = 29)) :
    ∀ k : ℕ, ((addCycle YEARLY)^[k] a).year = a.year + k ∧
      ((addCycle YEARLY)^[k] a).month = a.month ∧
      ((addCycle YEARLY)^[k] a).day = a.day ∧ ((addCycle YEARLY)^[k] a).Valid := by
  intro k
  induction k with
  | zero =>
    rw [Function.iterate_zero_apply]
    exact ⟨by push_cast; ring, rfl, rfl, hv⟩
  | succ i ih =>
    obtain ⟨hy, hm, hd, hvv⟩ := ih
    have hfeb2 : ¬(((addCycle YEARLY)^[i] a).month = 2 ∧ ((addCycle YEARLY)^[i] a).day = 29) := by
      rw [hm, hd]
      exact hfeb
    have hs := yearly_step hvv hfeb2
    rw [Function.iterate_succ_apply', addCycle_yearly]
    refine ⟨?_, ?_, ?_, hs.2.2.2⟩
    · rw [hs.1, hy]
      push_cast
      ring
    · rw [hs.2.1, hm]
    · rw [hs.2.2.1, hd]

theorem yearly_reach :
    ∀ (n : ℕ) (a d : Date), a.Valid → ¬(a.month = 2 ∧ a.day = 29) → d.Valid →
      d.month = a.month → d.day = a.day → d.year = a.year + n →
      (addCycle YEARLY)^[n] a = d := by
  intro n
  induction n with
  | zero =>
    intro a d hv hfeb hvd hm hd hy
    rw [Function.iterate_zero_apply]
    have hy2 : d.year = a.year := by push_cast at hy; omega
    exact (date_ext hy2 (by rw [hm]) (by rw [hd])).symm
  | succ i ih =>
    intro a d hv hfeb hvd hm hd hy
    have hs := yearly_step hv hfeb
    rw [Function.iterate_succ_apply]
    have hstep : addCycle YEARLY a = addMonths 12 a := addCycle_yearly a
    rw [hstep]
    refine ih (addMonths 12 a) d hs.2.2.2 ?_ hvd ?_ ?_ ?_
    · rw [hs.2.1, hs.2.2.1]
      exact hfeb
    · rw [hs.2.1]
      exact hm
    · rw [hs.2.2.1]
      exact hd
    · rw [hs.1]
      push_cast at hy ⊢
      omega

theorem yearly_is_due_iff {a d : Date} (nm : String) (amt : ℚ) (hv : a.Valid)
    (hfeb : ¬(a.month = 2 ∧ a.day = 29)) (hvd : d.Valid) :
    Bill.is_due ⟨nm, amt, YEARLY, a, false, false, false⟩ d = true ↔
      (d.day = a.day ∧ d.month = a.month ∧ toOrdinal a ≤ toOrdinal d) := by
  have hs : StepUp (addCycle YEARLY) := cyclePos_yearly
  constructor
  · intro h
    unfold Bill.is_due at h
    have heq : (upTo (addCycle YEARLY) d a).2 = d := of_decide_eq_true h
    obtain ⟨k, hk, hallk, hgek⟩ := upTo_spec hs d a hv
    rw [heq] at hk
    have hy := yearly_iter hv hfeb k
    have hord : toOrdinal a ≤ toOrdinal d := by
      have h0 := iter_ord_le hs hv (Nat.zero_le k)
      simp only [Function.iterate_zero, id_eq] at h0
      rw [hk]
      exact h0
    refine ⟨?_, ?_, hord⟩
    · rw [hk]
      exact hy.2.2.1
    · rw [hk]
      exact hy.2.1
  · intro hcond
    obtain ⟨hday, hmon, hord⟩ := hcond
    have hmid : midx a ≤ midx d := midx_le_of_ord_le hv hvd hord
    have hyear : a.year ≤ d.year := by
      unfold midx at hmid
      omega
    have hocc : (addCycle YEARLY)^[(d.year - a.year).toNat] a = d := by
      apply yearly_reach _ a d hv hfeb hvd hmon hday
      omega
    unfold Bill.is_due
    apply decide_eq_true
    show (upTo (addCycle YEARLY) d a).2 = d
    rw [← hocc]
    exact upTo_hit hs hv _

/- Anchor derivation facts (Bill.__post_init__). -/

theorem monthly_anchor_spec {today : Date} (hv : today.Valid) {day : ℤ} (h1 : 1 ≤ day)
    (h28 : day ≤ 28) :
    ∃ a : Date, monthly_anchor today day = some a ∧ a.day = day ∧ a.Valid ∧ a.day ≤ 28 := by
  have hb := daysInMonth_bounds today.year today.month
  have hcv : (Date.mk today.year today.month day).Valid :=
    valid_mk hv.1 hv.2.1 h1 (by omega)
  unfold monthly_anchor
  rw [if_pos hcv]
  by_cases hf : toOrdinal today < toOrdinal ⟨today.year, today.month, day⟩
  · rw [if_pos hf]
    have hd := addMonths_day (d := ⟨today.year, today.month, day⟩) (-1) h28
    exact ⟨_, rfl, hd, addMonths_valid _ hcv, by rw [hd]; exact h28⟩
  · rw [if_neg hf]
    exact ⟨_, rfl, rfl, hcv, h28⟩

theorem weekly_anchor_go_spec {w : ℤ} (hw0 : 0 ≤ w) (hw7 : w < 7) :
    ∀ (fuel : ℕ) (cur : Date), cur.Valid →
      ((toOrdinal cur - 1 - w) % 7).toNat < fuel →
      weekday (weekly_anchor_go fuel w cur) = w ∧ (weekly_anchor_go fuel w cur).Valid := by
  intro fuel
  induction fuel with
  | zero =>
    intro cur hv hm
    omega
  | succ f ih =>
    intro cur hv hm
    unfold weekly_anchor_go
    by_cases hc : weekday cur = w
    · rw [if_pos hc]
      exact ⟨hc, hv⟩
    · rw [if_neg hc]
      have hp := toOrdinal_pred hv
      apply ih (predDate cur) hp.2
      unfold weekday at hc
      rw [hp.1]
      omega

theorem weekly_anchor_spec {today : Date} (hv : today.Valid) {w : ℤ} (hw0 : 0 ≤ w)
    (hw7 : w < 7) :
    weekday (weekly_anchor today w) = w ∧ (weekly_anchor today w).Valid := by
  apply weekly_anchor_go_spec hw0 hw7 7 today hv
  omega

theorem yearly_step_down {d : Date} (hv : d.Valid) (hfeb : ¬(d.month = 2 ∧ d.day = 29)) :
    (addMonths (-12) d).year = d.year - 1 ∧ (addMonths (-12) d).month = d.month ∧
      (addMonths (-12) d).day = d.day ∧ (addMonths (-12) d).Valid := by
  have hvv := hv
  obtain ⟨hm1, hm2, hd1, hd2⟩ := hvv
  have hday : min d.day
      (daysInMonth (d.year + (d.month - 1 + -12) / 12) ((d.month - 1 + -12) % 12 + 1)) =
        d.day := by
    have he1 : (d.month - 1 + -12) / 12 = -1 := by omega
    have he2 : (d.month - 1 + -12) % 12 + 1 = d.month := by omega
    rw [he1, he2]
    by_cases hm : d.month = 2
    · have h29 : d.day ≤ 29 := by
        unfold daysInMonth at hd2
        rw [if_pos hm] at hd2
        split_ifs at hd2 <;> omega
      have h28 : d.day ≤ 28 := by
        rcases Decidable.eq_or_ne d.day 29 with he | he
        · exact absurd ⟨hm, he⟩ hfeb
        · omega
      have hb := daysInMonth_bounds (d.year + -1) d.month
      omega
    · rw [dim_year_invariant (d.year + -1) d.year d.month hm]
      omega
  refine ⟨?_, ?_, ?_, addMonths_valid (-12) hv⟩
  · show d.year + (d.month - 1 + -12) / 12 = d.year - 1
    omega
  · show (d.month - 1 + -12) % 12 + 1 = d.month
    omega
  · exact hday

theorem yearly_anchor_spec {today : Date} (_hv : today.Valid) {month day : ℤ}
    (hcv : (Date.mk today.year month day).Valid) (hfeb : ¬(month = 2 ∧ day = 29)) :
    ∃ a : Date, yearly_anchor today month day = some a ∧ a.month = month ∧ a.day = day ∧
      a.Valid ∧ ¬(a.month = 2 ∧ a.day = 29) := by
  unfold yearly_anchor
  rw [if_pos hcv]
  by_cases hf : toOrdinal today < toOrdinal ⟨today.year, month, day⟩
  · rw [if_pos hf]
    have hsd := yearly_step_down (d := ⟨today.year, month, day⟩) hcv hfeb
    refine ⟨_, rfl, hsd.2.1, hsd.2.2.1, hsd.2.2.2, ?_⟩
    rw [hsd.2.1, hsd.2.2.1]
    exact hfeb
  · rw [if_neg hf]
    exact ⟨_, rfl, rfl, rfl, hcv, hfeb⟩

/-- C6: the claim says is_due(d) holds iff the day (resp. weekday, day+month)
matches the configured schedule; but is_due only recognizes dates reachable
from the lastPaid anchor by whole cycles, so any matching date before the
anchor is rejected: a monthly bill with configured day 5 whose anchor derives
to 0003-03-05 answers false on 0003-02-05 although its day equals 5.
Day-of-month 31 also fails on later months because relativedelta clamps
(anchor 0003-01-31 steps to 0003-02-28 then 0003-03-28, so 0003-03-31 is not
due although its day matches). -/
theorem c6_counterexample :
    monthly_anchor ⟨3, 3, 10⟩ 5 = some ⟨3, 3, 5⟩ ∧
    Bill.is_due ⟨"Gym", 25, MONTHLY, ⟨3, 3, 5⟩, false, false, false⟩ ⟨3, 2, 5⟩ = false ∧
    (⟨3, 2, 5⟩ : Date).day = 5 ∧
    Bill.is_due ⟨"Ins", 99, MONTHLY, ⟨3, 1, 31⟩, false, false, false⟩ ⟨3, 3, 31⟩ = false ∧
    (⟨3, 3, 31⟩ : Date).day = 31 ∧
    toOrdinal ⟨3, 1, 31⟩ ≤ toOrdinal (⟨3, 3, 31⟩ : Date) := by
  refine ⟨by decide, by decide, rfl, by decide, rfl, by decide⟩

/-- C6 (amended): for dates on or after the derived anchor the claimed
characterizations hold: a monthly bill with configured day at most 28 is due
on d iff d.day equals the configured day and d is not before the anchor; a
weekly bill with derived anchor is due on d iff d's weekday equals the
configured weekday and d is not before the anchor; a yearly bill whose
configured (month, day) is not February 29 is due on d iff (d.day, d.month)
equals the configured pair and d is not before the anchor.  Dates before the
anchor, day-of-month values above 28 (relativedelta clamping) and Feb 29
anchors are not characterized by schedule-field equality alone. -/
theorem c6_amended :
    (∀ (today : Date) (day : ℤ) (a d : Date) (nm : String) (amt : ℚ),
      today.Valid → 1 ≤ day → day ≤ 28 → monthly_anchor today day = some a → d.Valid →
      (Bill.is_due ⟨nm, amt, MONTHLY, a, false, false, false⟩ d = true ↔
        (d.day = day ∧ toOrdinal a ≤ toOrdinal d))) ∧
    (∀ (today : Date) (w : ℤ) (d : Date) (nm : String) (amt : ℚ),
      today.Valid → 0 ≤ w → w < 7 → d.Valid →
      (Bill.is_due ⟨nm, amt, WEEKLY, weekly_anchor today w, false, false, false⟩ d = true ↔
        (weekday d = w ∧ toOrdinal (weekly_anchor today w) ≤ toOrdinal d))) ∧
    (∀ (today : Date) (month day : ℤ) (a d : Date) (nm : String) (amt : ℚ),
      today.Valid → (Date.mk today.year month day).Valid → ¬(month = 2 ∧ day = 29) →
      yearly_anchor today month day = some a → d.Valid →
      (Bill.is_due ⟨nm, amt, YEARLY, a, false, false, false⟩ d = true ↔
        (d.day = day ∧ d.month = month ∧ toOrdinal a ≤ toOrdinal d))) := by
  refine ⟨?_, ?_, ?_⟩
  · intro today day a d nm amt hv h1 h28 hanc hvd
    obtain ⟨a2, ha2, hday, hav, ha28⟩ := monthly_anchor_spec hv h1 h28
    rw [hanc] at ha2
    have hae : a = a2 := Option.some.inj ha2
    rw [hae, ← hday]
    exact monthly_is_due_iff nm amt hav ha28 hvd
  · intro today w d nm amt hv hw0 hw7 hvd
    obtain ⟨hwd, hav⟩ := weekly_anchor_spec hv hw0 hw7
    have hiff := weekly_is_due_iff (a := weekly_anchor today w) nm amt hav hvd
    rw [hwd] at hiff
    exact hiff
  · intro today month day a d nm amt hv hcv hfeb hanc hvd
    obtain ⟨a2, ha2, hmon, hday, hav, hfeb2⟩ := yearly_anchor_spec hv hcv hfeb
    rw [hanc] at ha2
    have hae : a = a2 := Option.some.inj ha2
    rw [hae, ← hday, ← hmon]
    exact yearly_is_due_iff nm amt hav hfeb2 hvd

theorem c6_amended_witness :
    (Bill.is_due ⟨"Gym", 25, MONTHLY, ⟨3, 3, 5⟩, false, false, false⟩ ⟨3, 4, 5⟩ = true ↔
      ((⟨3, 4, 5⟩ : Date).day = 5 ∧ toOrdinal ⟨3, 3, 5⟩ ≤ toOrdinal (⟨3, 4, 5⟩ : Date))) ∧
    (Bill.is_due ⟨"HF", 60, WEEKLY, weekly_anchor ⟨3, 1, 10⟩ 2, false, false, false⟩
        ⟨3, 1, 15⟩ = true ↔
      (weekday ⟨3, 1, 15⟩ = 2 ∧
        toOrdinal (weekly_anchor ⟨3, 1, 10⟩ 2) ≤ toOrdinal (⟨3, 1, 15⟩ : Date))) ∧
    (Bill.is_due ⟨"Dom", 15, YEARLY, ⟨2, 5, 10⟩, false, false, false⟩ ⟨4, 5, 10⟩ = true ↔
      ((⟨4, 5, 10⟩ : Date).day = 10 ∧ (⟨4, 5, 10⟩ : Date).month = 5 ∧
        toOrdinal ⟨2, 5, 10⟩ ≤ toOrdinal (⟨4, 5, 10⟩ : Date))) :=
  ⟨c6_amended.1 ⟨3, 3, 10⟩ 5 ⟨3, 3, 5⟩ ⟨3, 4, 5⟩ "Gym" 25 (by decide) (by decide) (by decide)
      (by decide) (by decide),
   c6_amended.2.1 ⟨3, 1, 10⟩ 2 ⟨3, 1, 15⟩ "HF" 60 (by decide) (by decide) (by decide)
      (by decide),
   c6_amended.2.2 ⟨3, 3, 10⟩ 5 10 ⟨2, 5, 10⟩ ⟨4, 5, 10⟩ "Dom" 15 (by decide) (by decide)
      (by decide) (by decide) (by decide)⟩

end BillTracker
